import Mathlib

/-!
# Verification of the LogiMaster propositional-logic core

Shallow embedding of the logic engine of `src/src/App.js`: the tokenizer,
the right-to-left precedence splitter and recursive parser (`parseToAST`),
the canonicalizer (`ASTNode.toFullString`), the evaluator
(`solveProposition`), the sub-expression extractor (`getSubExpressions`),
the truth-table row generator (`generateTable`), and the strict reduction
engine (`handleInteraction` / `addToHistory`).

Functions whose JS originals recurse on non-structural arguments
(`parseToAST`, the outer-parenthesis stripping loop, the regex-replace
normalization loop) are embedded with an explicit fuel argument set to a
bound derived from the input length, together with stabilization lemmas
showing the fuel is irrelevant once large enough; this keeps every
definition kernel-executable.
-/

set_option maxHeartbeats 1000000

namespace LogiMaster

/-- `PRECEDENCE` table from App.js: NOT=5, AND=4, OR=3, IMP=2, IFF=1.
JS reads `PRECEDENCE[t] || 100`, so unknown tokens get 100. -/
def PRECEDENCE (t : String) : Nat :=
  if t = "¬" then 5
  else if t = "∧" then 4
  else if t = "∨" then 3
  else if t = "⇒" then 2
  else if t = "⇔" then 1
  else 100

/-- `VARS` from App.js. -/
def VARS : List String := ["P", "Q", "R", "S", "T", "U"]

/-- The four binary connective tokens. -/
def binOps : List String := ["∧", "∨", "⇒", "⇔"]

/-! ## Balance bookkeeping (`isBalanced` from App.js) -/

/-- The loop body of `isBalanced`: `(` increments, `)` decrements, an
intermediate negative balance aborts with `false`. -/
def isBalancedAux : Int → List String → Bool
  | bal, [] => bal == 0
  | bal, t :: rest =>
    let b1 := if t = "(" then bal + 1 else bal
    let b2 := if t = ")" then b1 - 1 else b1
    if b2 < 0 then false else isBalancedAux b2 rest

/-- `isBalanced` from App.js. -/
def isBalanced (toks : List String) : Bool := isBalancedAux 0 toks

/-- Net parenthesis contribution of one token, `(` counted +1. -/
def pdelta (t : String) : Int :=
  if t = "(" then 1 else if t = ")" then -1 else 0

/-- Total left-parenthesis surplus of a token list. -/
def deltaL : List String → Int
  | [] => 0
  | t :: rest => pdelta t + deltaL rest

/-- Whether the running balance starting from `b` stays nonnegative. -/
def nonnegScan : Int → List String → Bool
  | _, [] => true
  | b, t :: rest => if b + pdelta t < 0 then false else nonnegScan (b + pdelta t) rest

/-- Right-to-left balance as the split scan counts it: `)` is +1. -/
def balR : List String → Int
  | [] => 0
  | t :: rest => -pdelta t + balR rest

/-! ## The split finder (`findSplit` inside `parseToAST`) -/

/-- State-threading core of `findSplit`.  `fsAux i toks` scans `toks`
right to left (the rightmost token is processed first, exactly as the JS
`for (let i = toks.length - 1; i >= 0; i--)` loop), where `i` is the
absolute index of the head of `toks`; it returns the final
`(balance, minPrec, splitIdx)` state. -/
def fsAux : Nat → List String → Int × Nat × Option Nat
  | _, [] => (0, 100, none)
  | i, t :: rest =>
    let s := fsAux (i + 1) rest
    let bal := s.1
    let minPrec := s.2.1
    let splitIdx := s.2.2
    if t = ")" then (bal + 1, minPrec, splitIdx)
    else if t = "(" then (bal - 1, minPrec, splitIdx)
    else if bal = 0 then
      if t = "¬" then (bal, minPrec, splitIdx)
      else
        let prec := PRECEDENCE t
        if prec < 100 ∧ prec < minPrec then (bal, prec, some i)
        else (bal, minPrec, splitIdx)
    else (bal, minPrec, splitIdx)

/-- `findSplit` from App.js: the split index (or `none` for JS `-1`). -/
def findSplit (toks : List String) : Option Nat := (fsAux 0 toks).2.2

/-! ## Outer-parenthesis stripping (the `while` loop in `parseToAST`) -/

/-- One test of the strip-loop guard:
`tokens[0] === '(' && tokens[last] === ')' && isBalanced(tokens.slice(1,-1))`. -/
def stripGuard (tokens : List String) : Bool :=
  tokens.headD "" = "(" ∧ tokens.getLastD "" = ")" ∧
    isBalanced (tokens.drop 1).dropLast

/-- Fueled strip loop. Each firing removes two tokens, so fuel
`tokens.length` always suffices. -/
def stripOuterFuel : Nat → List String → List String
  | 0, tokens => tokens
  | f + 1, tokens =>
    if stripGuard tokens then stripOuterFuel f ((tokens.drop 1).dropLast)
    else tokens

/-- The outer-parenthesis stripping loop of `parseToAST`. -/
def stripOuter (tokens : List String) : List String :=
  stripOuterFuel tokens.length tokens

/-! ## AST (`ASTNode` class) -/

/-- `ASTNode` from App.js.  A `NOT` node always carries value `'¬'` in the
source (both construction sites pass `SYMBOLS.NOT`), so the value field is
kept only for atoms and binary nodes. -/
inductive ASTNode where
  | atom (value : String)
  | neg (left : ASTNode)
  | bin (value : String) (left right : ASTNode)
  deriving DecidableEq, Repr

/-- `ASTNode.toFullString` from App.js. -/
def ASTNode.toFullString : ASTNode → String
  | .atom v => v
  | .neg l => "(¬ " ++ l.toFullString ++ ")"
  | .bin v l r => "(" ++ l.toFullString ++ " " ++ v ++ " " ++ r.toFullString ++ ")"

/-! ## The parser (`parseToAST`) -/

/-- Fueled body of `parseToAST`.  The JS function strips outer parentheses,
returns the `'ERR'` atom on an empty slice, an atom on a singleton, then:
if the head is `¬` and no split exists it builds a negation, if a split
exists it builds a binary node, otherwise (head `¬` unreachable here) it
falls through to the `'ERR'` atom. -/
def parseFuel : Nat → List String → ASTNode
  | 0, _ => .atom "ERR"
  | f + 1, tokens =>
    let tks := stripOuter tokens
    if tks.length = 0 then .atom "ERR"
    else if tks.length = 1 then .atom (tks.headD "")
    else
      match findSplit tks with
      | some i =>
          .bin (tks.getD i "") (parseFuel f (tks.take i)) (parseFuel f (tks.drop (i + 1)))
      | none =>
          if tks.headD "" = "¬" then .neg (parseFuel f (tks.drop 1))
          else .atom "ERR"

/-- `parseToAST` from App.js.  Every recursive call is on a strictly
shorter slice of the (never-lengthening) stripped token list, so fuel
`tokens.length` suffices; `parseFuel_stable` proves the fuel irrelevant. -/
def parseToAST (tokens : List String) : ASTNode :=
  parseFuel tokens.length tokens

/-! ## Tokenizer

`formula.replace(/\s/g, '').split(/([¬∧∨⇒⇔()])/).filter(t => t)`:
whitespace is removed, the string is cut at every connective or
parenthesis character (each kept as its own token), empty fragments are
dropped. -/

/-- The seven characters the tokenizer splits on. -/
def isSpecial (c : Char) : Bool :=
  c = '¬' ∨ c = '∧' ∨ c = '∨' ∨ c = '⇒' ∨ c = '⇔' ∨ c = '(' ∨ c = ')'

/-- Split a whitespace-free character list at special characters.  `acc`
is the current plain run, reversed. -/
def tokenizeChars : List Char → List Char → List String
  | [], acc => if acc = [] then [] else [String.mk acc.reverse]
  | c :: cs, acc =>
    if isSpecial c then
      (if acc = [] then [] else [String.mk acc.reverse]) ++
        String.mk [c] :: tokenizeChars cs []
    else tokenizeChars cs (c :: acc)

/-- The tokenizer used by `solveProposition`, `handleCustomCheck` and
`generateTable`. -/
def tokenize (s : String) : List String :=
  tokenizeChars (s.toList.filter fun c => ¬ c.isWhitespace) []

/-! ## Evaluator (`evaluateOp`, `evaluateNot`, `solveProposition`) -/

/-- `evaluateOp` from App.js: two-valued connective semantics on the
literal strings `'0'` / `'1'`. -/
def evaluateOp (left op right : String) : String :=
  let l := left = "1"
  let r := right = "1"
  if op = "∧" then if l ∧ r then "1" else "0"
  else if op = "∨" then if l ∨ r then "1" else "0"
  else if op = "⇒" then if ¬ l ∨ r then "1" else "0"
  else if op = "⇔" then if l = r then "1" else "0"
  else "0"

/-- `evaluateNot` from App.js. -/
def evaluateNot (val : String) : String := if val = "1" then "0" else "1"

/-- JS `String.prototype.toUpperCase`, character by character. -/
def toUpperStr (s : String) : String := String.mk (s.toList.map Char.toUpper)

/-- The inner `evalAST` of `solveProposition`.  The assignment is an
association list; `!!values[key]` maps an absent key to `false`. -/
def evalAST (values : List (String × Bool)) : ASTNode → Bool
  | .atom v =>
    if v = "1" ∨ v = "T" then true
    else if v = "0" ∨ v = "F" then false
    else (values.lookup (toUpperStr v)).getD false
  | .neg l => ! evalAST values l
  | .bin v l r =>
    let lv := evalAST values l
    let rv := evalAST values r
    if v = "∧" then lv ∧ rv
    else if v = "∨" then lv ∨ rv
    else if v = "⇒" then ¬ lv ∨ rv
    else if v = "⇔" then lv = rv
    else false

/-- `solveProposition` from App.js: tokenize, parse, evaluate.  No step
can fail, so the surrounding JS `try`/`catch` is inert. -/
def solveProposition (formula : String) (values : List (String × Bool)) : Bool :=
  evalAST values (parseToAST (tokenize formula))

/-! ## Sub-expression extraction (`getSubExpressions`) -/

/-- JS `Set.prototype.add`: append only when not already present. -/
def addUnique (l : List String) (s : String) : List String :=
  if s ∈ l then l else l ++ [s]

/-- `getSubExpressions` from App.js: every binary or negation node adds
its canonical rendering to the set, children are visited left to right. -/
def getSubExpressions : ASTNode → List String → List String
  | .atom _, list => list
  | .neg l, list => getSubExpressions l (addUnique list (ASTNode.neg l).toFullString)
  | .bin v l r, list =>
    getSubExpressions r (getSubExpressions l (addUnique list (ASTNode.bin v l r).toFullString))

/-- All subtrees of a tree (the tree itself included); specification-side
companion used to state what `getSubExpressions` collects. -/
def subtrees : ASTNode → List ASTNode
  | .atom v => [.atom v]
  | .neg l => .neg l :: subtrees l
  | .bin v l r => .bin v l r :: (subtrees l ++ subtrees r)

/-- Whether a node is a negation or binary node (not an atom). -/
def isCompound : ASTNode → Bool
  | .atom _ => false
  | _ => true

/-! ## Truth-table generation (`parseVars`, `generateTable`) -/

/-- ASCII letter test, the character class of `/[a-z]+/gi`. -/
def isAsciiLetter (c : Char) : Bool :=
  ('a' ≤ c ∧ c ≤ 'z') ∨ ('A' ≤ c ∧ c ≤ 'Z')

/-- Maximal ASCII-letter runs of a character list: `str.match(/[a-z]+/gi)`. -/
def letterRuns : List Char → List Char → List String
  | [], acc => if acc = [] then [] else [String.mk acc.reverse]
  | c :: cs, acc =>
    if isAsciiLetter c then letterRuns cs (c :: acc)
    else (if acc = [] then [] else [String.mk acc.reverse]) ++ letterRuns cs []

/-- JS `Set` built by repeated `add`: first occurrences, in order. -/
def dedupKeepFirst (l : List String) : List String :=
  l.foldl (fun acc v => addUnique acc v) []

/-- Lexicographic comparison of character lists by code point, the order
`Array.prototype.sort`'s default comparator induces on strings. -/
def charsLe : List Char → List Char → Bool
  | [], _ => true
  | _ :: _, [] => false
  | a :: as, b :: bs =>
    if a.toNat < b.toNat then true
    else if b.toNat < a.toNat then false
    else charsLe as bs

/-- String comparison for the variable sort. -/
def strLe (a b : String) : Bool := charsLe a.toList b.toList

/-- Insertion into a sorted list by string order. -/
def insertSorted (s : String) : List String → List String
  | [] => [s]
  | t :: ts => if strLe s t then s :: t :: ts else t :: insertSorted s ts

/-- `Array.prototype.sort` with the default string comparison. -/
def sortStrings (l : List String) : List String := l.foldr insertSorted []

/-- `parseVars` from App.js: the maximal letter runs of the formula,
uppercased, with `'T'` and `'F'` excluded, deduplicated and sorted. -/
def parseVars (str : String) : List String :=
  sortStrings (dedupKeepFirst
    (((letterRuns str.toList []).map toUpperStr).filter fun v => v ≠ "T" ∧ v ≠ "F"))

/-- JS `ToInt32` of a nonnegative number: reduce modulo `2^32` and
reinterpret the high bit as a sign. -/
def toInt32 (x : Nat) : Int :=
  if x % 2 ^ 32 < 2 ^ 31 then ((x % 2 ^ 32 : Nat) : Int)
  else ((x % 2 ^ 32 : Nat) : Int) - 2 ^ 32

/-- JS `1 << n`: a 32-bit shift — the count is taken modulo 32 and the
result is a signed 32-bit value (so `1 << 31` is negative and
`1 << 32 = 1`). -/
def jsShl1 (n : Nat) : Int := toInt32 (2 ^ (n % 32))

/-- Number of iterations of `for (let i = count - 1; i >= 0; i--)` for
`count = 1 << n`: none at all when the shift wrapped nonpositive. -/
def rowCount (n : Nat) : Nat := (jsShl1 n).toNat

/-- The `inputs` object of one truth-table row for assignment integer `i`:
variable `idx` receives `(i >> shift) & 1 ? 1 : 0` with
`shift = n - 1 - idx`.  JS `>>` is a 32-bit operation: the left operand
is reduced to its 32-bit pattern, the shift count is taken modulo 32,
and bit 0 of the shifted value is bit `shift % 32` of that pattern. -/
def rowInputsFor (vars : List String) (i : Nat) : List (String × Nat) :=
  vars.enum.map fun p =>
    (p.2, if ((i % 2 ^ 32) >>> ((vars.length - 1 - p.1) % 32)) &&& 1 ≠ 0
      then 1 else 0)

/-- The row list built by `generateTable`: no rows when no variable was
found, otherwise one row per assignment integer `i` counting down from
`(1 << vars.length) - 1` to `0` — a 32-bit shift, hence no rows at all
when it wraps nonpositive. -/
def generateTableRows (expr : String) : List (List (String × Nat)) :=
  let vars := parseVars expr
  if vars = [] then []
  else ((List.range (rowCount vars.length)).reverse).map (rowInputsFor vars)

/-! ## Strict reduction engine
(`getTokens`, `handleInteraction`, `addToHistory` of `EvaluationSection`) -/

/-- The `isVal` test of `handleInteraction`. -/
def isVal (v : String) : Bool := v = "1" ∨ v = "0"

/-- Candidate test for one index of the `tokens.forEach` candidate scan:
a `¬` whose right neighbour is a literal, or a binary operator whose two
neighbours are literals (JS `tokens[i-1]` is `undefined` for `i = 0`). -/
def candAt (tokens : List String) (i : Nat) : Option (Nat × Nat) :=
  if tokens.getD i "" = "¬" ∧ isVal (tokens.getD (i + 1) "") then
    some (i, PRECEDENCE (tokens.getD i ""))
  else if (tokens.getD i "" = "∧" ∨ tokens.getD i "" = "∨" ∨
        tokens.getD i "" = "⇒" ∨ tokens.getD i "" = "⇔") ∧
      isVal (if i = 0 then "" else tokens.getD (i - 1) "") ∧
      isVal (tokens.getD (i + 1) "") then
    some (i, PRECEDENCE (tokens.getD i ""))
  else none

/-- The `candidates` array of `handleInteraction`: `(index, precedence)`
of every reducible token, in index order. -/
def candidatesOf (tokens : List String) : List (Nat × Nat) :=
  (List.range tokens.length).filterMap (candAt tokens)

/-- `Math.max(...candidates.map(c => c.prec))` (candidates nonempty). -/
def maxPrecOf (tokens : List String) : Nat :=
  ((candidatesOf tokens).map Prod.snd).foldl max 0

/-- JS whitespace test for the engine's strings. -/
def isWs (c : Char) : Bool := c.isWhitespace

/-- `Array.prototype.join(' ')` at the character level. -/
def joinChars : List (List Char) → List Char
  | [] => []
  | [x] => x
  | x :: xs => x ++ ' ' :: joinChars xs

/-- `tokens.join(' ')`. -/
def joinTokens (ts : List String) : String :=
  String.mk (joinChars (ts.map String.toList))

/-- `String.prototype.trim`. -/
def trimChars (cs : List Char) : List Char :=
  ((cs.dropWhile isWs).reverse.dropWhile isWs).reverse

/-- The paren padding of `getTokens`:
`replace(/\(/g, ' ( ').replace(/\)/g, ' ) ')` per character. -/
def expandParen (c : Char) : List Char :=
  if c = '(' then [' ', '(', ' ']
  else if c = ')' then [' ', ')', ' '] else [c]

/-- `split(/\s+/)` on a trimmed string: the maximal non-whitespace runs.
`acc` is the current run, reversed. -/
def wsSplitAux : List Char → List Char → List String
  | [], acc => if acc = [] then [] else [String.mk acc.reverse]
  | c :: cs, acc =>
    if isWs c then
      (if acc = [] then [] else [String.mk acc.reverse]) ++ wsSplitAux cs []
    else wsSplitAux cs (c :: acc)

/-- `getTokens` from App.js, including the JS quirk that a nonempty
all-whitespace string yields `[""]` (`''.split(/\s+/)` is `['']`). -/
def getTokens (str : String) : List String :=
  if str = "" then []
  else
    let t := trimChars (str.toList.flatMap expandParen)
    if t = [] then [""] else wsSplitAux t []

/-- One attempted match of the normalization regex `\(\s*([01])\s*\)` at
the head of the character list; on success returns the captured literal
and the remainder. -/
def matchParenLit : List Char → Option (Char × List Char)
  | [] => none
  | c :: cs =>
    if c = '(' then
      match cs.dropWhile isWs with
      | [] => none
      | d :: cs2 =>
        if d = '0' ∨ d = '1' then
          match cs2.dropWhile isWs with
          | [] => none
          | e :: cs4 => if e = ')' then some (d, cs4) else none
        else none
    else none

/-- One global-replace pass of `clean.replace(/\(\s*([01])\s*\)/g, '$1')`:
left-to-right, non-overlapping.  A successful match consumes at least
three characters, so fuel `cs.length` suffices. -/
def replacePassFuel : Nat → List Char → List Char
  | 0, cs => cs
  | _ + 1, [] => []
  | f + 1, c :: cs =>
    match matchParenLit (c :: cs) with
    | some (d, rest) => d :: replacePassFuel f rest
    | none => c :: replacePassFuel f cs

/-- One pass of the normalization replace. -/
def replacePass (cs : List Char) : List Char := replacePassFuel cs.length cs

/-- The `while (changed)` fixed-point loop of `addToHistory`.  Every
productive pass shortens the list by at least two characters, so fuel
`cs.length + 1` suffices. -/
def normalizeLoop : Nat → List Char → List Char
  | 0, cs => cs
  | f + 1, cs =>
    let t := replacePass cs
    if t = cs then cs else normalizeLoop f t

/-- The string-normalization step of `addToHistory`. -/
def normalizeStr (s : String) : String :=
  String.mk (normalizeLoop (s.length + 1) s.toList)

/-- `addToHistory` from App.js: normalize, then append to the history. -/
def addToHistory (history : List String) (newStr : String) : List String :=
  history ++ [normalizeStr newStr]

/-- The rejection message of `handleInteraction`. -/
def orderWarning : String :=
  "⚠️ ¡Orden incorrecto! Resuelve primero los operadores de mayor jerarquía."

/-- `handleInteraction` from App.js, as `(new history, message)`.  JS
`tokens.slice(0, idx - 1)` for `idx = 0` is `slice(0, -1)`, i.e. all but
the last element, hence the `dropLast` case. -/
def handleInteraction (history : List String) (idx : Nat) (tokens : List String) :
    List String × String :=
  if candidatesOf tokens = [] then (history, "")
  else if PRECEDENCE (tokens.getD idx "") < maxPrecOf tokens then
    (history, orderWarning)
  else if tokens.getD idx "" = "¬" then
    (addToHistory history
      (String.mk (trimChars
        (joinTokens (tokens.take idx) ++ " " ++
          evaluateNot (tokens.getD (idx + 1) "") ++ " " ++
          joinTokens (tokens.drop (idx + 2))).toList)), "")
  else
    (addToHistory history
      (String.mk (trimChars
        (joinTokens (if idx = 0 then tokens.dropLast else tokens.take (idx - 1)) ++
          " " ++
          evaluateOp (if idx = 0 then "" else tokens.getD (idx - 1) "")
            (tokens.getD idx "") (tokens.getD (idx + 1) "") ++ " " ++
          joinTokens (tokens.drop (idx + 2))).toList)), "")

/-! ## Specification-side description of the split scan -/

/-- The split-candidate positions of a token list, relative to an ambient
right-context balance `b` (the number of `)` minus `(` to the right of the
whole list).  Position `0` is a candidate when its token is not a
parenthesis, the scan balance at it (`balR rest + b`) is zero, it is not
`¬`, and it has a real precedence; deeper candidates shift by one. -/
def candsB : List String → Int → List Nat
  | [], _ => []
  | t :: rest, b =>
    let tail := (candsB rest b).map (· + 1)
    if t ≠ ")" ∧ t ≠ "(" ∧ balR rest + b = 0 ∧ t ≠ "¬" ∧ PRECEDENCE t < 100
    then 0 :: tail else tail

/-- What the scan state `(minPrec, splitIdx)` means after processing a
token list whose head sits at absolute index `i`: either there is no
candidate, or `splitIdx` points at a candidate of minimal precedence,
rightmost among the candidates sharing that precedence. -/
def ScanSpec (toks : List String) (i : Nat) (mp : Nat) (si : Option Nat) : Prop :=
  (candsB toks 0 = [] ∧ mp = 100 ∧ si = none) ∨
  (∃ j, j ∈ candsB toks 0 ∧ si = some (i + j) ∧
    mp = PRECEDENCE (toks.getD j "") ∧
    (∀ k, k ∈ candsB toks 0 → PRECEDENCE (toks.getD j "") ≤ PRECEDENCE (toks.getD k "")) ∧
    (∀ k, k ∈ candsB toks 0 →
      PRECEDENCE (toks.getD k "") = PRECEDENCE (toks.getD j "") → k ≤ j))
/-- Declarative split-candidate predicate used to state the claims: the
position holds one of the four binary operators and sits at right-to-left
parenthesis balance zero. -/
def isSplitCand (toks : List String) (j : Nat) : Prop :=
  j < toks.length ∧ balR (toks.drop (j + 1)) = 0 ∧ toks.getD j "" ∈ binOps

instance (toks : List String) (j : Nat) : Decidable (isSplitCand toks j) := by
  unfold isSplitCand
  infer_instance
/-! ## Well-formed token sequences and good trees (for the round trip) -/

/-- A plain (atom) token: nonempty and free of connective, parenthesis
and whitespace characters, so the tokenizer reproduces it verbatim. -/
def goodTok (v : String) : Prop :=
  v ≠ "" ∧ ∀ c ∈ v.toList, ¬ isSpecial c ∧ ¬ c.isWhitespace

instance (v : String) : Decidable (goodTok v) := by
  unfold goodTok
  infer_instance

/-- Trees whose atoms are plain tokens and whose binary tags are real
connectives; `parseToAST` produces only such trees on well-formed
input. -/
def goodTree : ASTNode → Prop
  | .atom v => goodTok v
  | .neg l => goodTree l
  | .bin v l r => v ∈ binOps ∧ goodTree l ∧ goodTree r

/-- The token sequence of a canonical rendering: exactly
`tokenize (t.toFullString)` for good `t`. -/
def tokensOf : ASTNode → List String
  | .atom v => [v]
  | .neg l => "(" :: "¬" :: tokensOf l ++ [")"]
  | .bin v l r => "(" :: (tokensOf l ++ v :: tokensOf r) ++ [")"]

/-- Well-formed token sequences: a plain atom; a negation of a
well-formed sequence; a parenthesized well-formed sequence; or two
well-formed sequences joined by a binary connective. -/
inductive WFToks : List String → Prop where
  | atom (v : String) (h : goodTok v) : WFToks [v]
  | neg (w : List String) (hw : WFToks w) : WFToks ("¬" :: w)
  | paren (w : List String) (hw : WFToks w) : WFToks ("(" :: w ++ [")"])
  | bin (w₁ : List String) (v : String) (w₂ : List String) (hv : v ∈ binOps)
      (h₁ : WFToks w₁) (h₂ : WFToks w₂) : WFToks (w₁ ++ v :: w₂)
/-- Whitespace removal, as `replace(/\s/g, '')` does before tokenizing. -/
def filtWs (cs : List Char) : List Char := cs.filter fun c => ¬ c.isWhitespace
/-! ## A token-count measure for the reduction engine -/

/-- Is the character a parenthesis? -/
def isParen (c : Char) : Bool := c = '(' ∨ c = ')'

/-- Cost of entering a run: one new token unless already inside a run. -/
def pay : Bool → Nat
  | true => 0
  | false => 1

/-- Token count of a raw character list as `getTokens` will see it after
paren padding: each parenthesis is one token and each maximal run of
other non-whitespace characters is one token.  The flag records whether
the scan is inside such a run. -/
def tc : Bool → List Char → Nat
  | _, [] => 0
  | inRun, c :: cs =>
    if isParen c then 1 + tc false cs
    else if isWs c then tc false cs
    else pay inRun + tc true cs

/-- Count of maximal non-whitespace runs: the number of pieces
`split(/\s+/)` finds in a trimmed string. -/
def rcW : Bool → List Char → Nat
  | _, [] => 0
  | inRun, c :: cs =>
    if isWs c then rcW false cs
    else pay inRun + rcW true cs

/-- Well-shaped tokens, as `getTokens` produces them: nonempty,
whitespace-free, and a parenthesis only ever appears as a whole token. -/
def niceTok (t : String) : Prop :=
  t.toList ≠ [] ∧ (∀ c ∈ t.toList, ¬ isWs c) ∧
    (t = "(" ∨ t = ")" ∨ ∀ c ∈ t.toList, ¬ isParen c)

instance (t : String) : Decidable (niceTok t) := by
  unfold niceTok
  infer_instance

def niceToks (ts : List String) : Prop := ∀ t ∈ ts, niceTok t

instance (ts : List String) : Decidable (niceToks ts) := by
  unfold niceToks
  infer_instance

/-- Adjacent characters never weld a parenthesis to another
non-whitespace character. -/
def sep (a b : Char) : Prop :=
  (isParen a = true ∨ isParen b = true) → (isWs a = true ∨ isWs b = true)

/-- Candidate positions are in range. -/
lemma candsB_lt : ∀ (toks : List String) (b : Int) (j : Nat),
    j ∈ candsB toks b → j < toks.length := by
  intro toks
  induction toks with
  | nil => intro b j h; simp [candsB] at h
  | cons t rest ih =>
    intro b j h
    simp only [candsB] at h
    split at h
    · rcases List.mem_cons.1 h with h0 | hm
      · simp [h0]
      · rcases List.mem_map.1 hm with ⟨j', hj', rfl⟩
        have := ih b j' hj'
        simp; omega
    · rcases List.mem_map.1 h with ⟨j', hj', rfl⟩
      have := ih b j' hj'
      simp; omega

/-- Indices reported by the scan lie in the processed range. -/
lemma fsAux_some_lt : ∀ (toks : List String) (i k : Nat),
    (fsAux i toks).2.2 = some k → i ≤ k ∧ k < i + toks.length := by
  intro toks
  induction toks with
  | nil => intro i k h; simp [fsAux] at h
  | cons t rest ih =>
    intro i k h
    simp only [fsAux] at h
    split_ifs at h with h1 h2 h3 h4 h5
    all_goals first
      | (exact ⟨(ih (i + 1) k h).1.trans' (by omega), by
            have := (ih (i + 1) k h).2; simp; omega⟩)
      | (simp at h; subst h; constructor <;> simp)

/-- `findSplit` only returns indices below the list length. -/
lemma findSplit_lt {toks : List String} {i : Nat} (h : findSplit toks = some i) :
    i < toks.length := by
  have := fsAux_some_lt toks 0 i h
  omega

/-! ## Stabilization of the fueled loops -/

/-- A firing strip guard forces at least two tokens. -/
lemma stripGuard_two_le {tokens : List String} (h : stripGuard tokens = true) :
    2 ≤ tokens.length := by
  match tokens with
  | [] => simp [stripGuard] at h
  | [t] =>
    simp only [stripGuard, List.headD, List.getLastD, decide_eq_true_eq] at h
    obtain ⟨h1, h2, -⟩ := h
    subst h1
    exact absurd h2 (by decide)
  | t :: u :: rest => simp

/-- The strip loop is insensitive to any sufficiently large fuel. -/
lemma stripOuterFuel_stable : ∀ (f₁ f₂ : Nat) (tokens : List String),
    tokens.length ≤ f₁ → tokens.length ≤ f₂ →
    stripOuterFuel f₁ tokens = stripOuterFuel f₂ tokens := by
  intro f₁
  induction f₁ with
  | zero =>
    intro f₂ tokens h1 h2
    have : tokens = [] := List.eq_nil_of_length_eq_zero (by omega)
    subst this
    cases f₂ with
    | zero => rfl
    | succ f => simp [stripOuterFuel, stripGuard, isBalanced, isBalancedAux]
  | succ f₁ ih =>
    intro f₂ tokens h1 h2
    cases f₂ with
    | zero =>
      have : tokens = [] := List.eq_nil_of_length_eq_zero (by omega)
      subst this
      simp [stripOuterFuel, stripGuard, isBalanced, isBalancedAux]
    | succ f₂ =>
      simp only [stripOuterFuel]
      split_ifs with hg
      · have h2le := stripGuard_two_le hg
        have hlen : ((tokens.drop 1).dropLast).length = tokens.length - 2 := by
          simp only [List.length_dropLast, List.length_drop]
          omega
        exact ih f₂ _ (by omega) (by omega)
      · rfl

/-- One-step unfolding of `stripOuter`. -/
lemma stripOuter_eq (tokens : List String) :
    stripOuter tokens =
      if stripGuard tokens then stripOuter ((tokens.drop 1).dropLast)
      else tokens := by
  by_cases hg : stripGuard tokens = true
  · rw [if_pos hg]
    have h2le := stripGuard_two_le hg
    have hlen : ((tokens.drop 1).dropLast).length = tokens.length - 2 := by
      simp only [List.length_dropLast, List.length_drop]
      omega
    show stripOuterFuel tokens.length tokens = _
    obtain ⟨n, hn⟩ : ∃ n, tokens.length = n + 1 := ⟨tokens.length - 1, by omega⟩
    rw [hn]
    simp only [stripOuterFuel]
    rw [if_pos hg]
    show _ = stripOuterFuel ((tokens.drop 1).dropLast).length _
    exact stripOuterFuel_stable n _ _ (by omega) le_rfl
  · rw [if_neg hg]
    show stripOuterFuel tokens.length tokens = tokens
    cases hn : tokens.length with
    | zero => rfl
    | succ n =>
      simp only [stripOuterFuel]
      rw [if_neg hg]

/-- Stripping never lengthens the list. -/
lemma stripOuter_length_le (tokens : List String) :
    (stripOuter tokens).length ≤ tokens.length := by
  have : ∀ (f : Nat) (toks : List String),
      (stripOuterFuel f toks).length ≤ toks.length := by
    intro f
    induction f with
    | zero => intro toks; simp [stripOuterFuel]
    | succ f ih =>
      intro toks
      simp only [stripOuterFuel]
      split_ifs with hg
      · refine (ih _).trans ?_
        simp only [List.length_dropLast, List.length_drop]
        omega
      · exact le_rfl
  exact this _ _

/-- The strip result never satisfies the guard again. -/
lemma stripGuard_stripOuter (tokens : List String) :
    stripGuard (stripOuter tokens) = false := by
  have : ∀ (f : Nat) (toks : List String), toks.length ≤ f →
      stripGuard (stripOuterFuel f toks) = false := by
    intro f
    induction f with
    | zero =>
      intro toks h
      have : toks = [] := List.eq_nil_of_length_eq_zero (by omega)
      subst this
      simp [stripOuterFuel, stripGuard]
    | succ f ih =>
      intro toks h
      simp only [stripOuterFuel]
      split_ifs with hg
      · have h2le := stripGuard_two_le hg
        refine ih _ ?_
        simp only [List.length_dropLast, List.length_drop]
        omega
      · exact Bool.eq_false_iff.mpr hg
  exact this _ _ le_rfl

/-- Stripping is idempotent. -/
lemma stripOuter_idem (tokens : List String) :
    stripOuter (stripOuter tokens) = stripOuter tokens := by
  rw [stripOuter_eq (stripOuter tokens), stripGuard_stripOuter]
  simp

/-- The parser is insensitive to any sufficiently large fuel. -/
lemma parseFuel_stable : ∀ (f₁ f₂ : Nat) (tokens : List String),
    tokens.length ≤ f₁ → tokens.length ≤ f₂ →
    parseFuel f₁ tokens = parseFuel f₂ tokens := by
  intro f₁
  induction f₁ with
  | zero =>
    intro f₂ tokens h1 h2
    have : tokens = [] := List.eq_nil_of_length_eq_zero (by omega)
    subst this
    cases f₂ with
    | zero => rfl
    | succ f =>
      simp [parseFuel, stripOuter, stripOuterFuel]
  | succ f₁ ih =>
    intro f₂ tokens h1 h2
    cases f₂ with
    | zero =>
      have : tokens = [] := List.eq_nil_of_length_eq_zero (by omega)
      subst this
      simp [parseFuel, stripOuter, stripOuterFuel]
    | succ f₂ =>
      have hstrip := stripOuter_length_le tokens
      simp only [parseFuel]
      by_cases hz : (stripOuter tokens).length = 0
      · rw [if_pos hz, if_pos hz]
      rw [if_neg hz, if_neg hz]
      by_cases ho : (stripOuter tokens).length = 1
      · rw [if_pos ho, if_pos ho]
      rw [if_neg ho, if_neg ho]
      cases hs : findSplit (stripOuter tokens) with
      | some i =>
        have hi : i < (stripOuter tokens).length := findSplit_lt hs
        have ht : ((stripOuter tokens).take i).length = i := by
          simp only [List.length_take]; omega
        have hd : ((stripOuter tokens).drop (i + 1)).length =
            (stripOuter tokens).length - (i + 1) := by
          simp only [List.length_drop]
        dsimp only
        rw [ih f₂ _ (by omega) (by omega), ih f₂ _ (by omega) (by omega)]
      | none =>
        dsimp only
        by_cases hne : (stripOuter tokens).headD "" = "¬"
        · rw [if_pos hne, if_pos hne]
          have hd : ((stripOuter tokens).drop 1).length =
              (stripOuter tokens).length - 1 := by
            simp only [List.length_drop]
          rw [ih f₂ _ (by omega) (by omega)]
        · rw [if_neg hne, if_neg hne]

/-- One-step unfolding of `parseToAST` in terms of itself. -/
lemma parseToAST_eq (tokens : List String) :
    parseToAST tokens =
      if (stripOuter tokens).length = 0 then .atom "ERR"
      else if (stripOuter tokens).length = 1 then .atom ((stripOuter tokens).headD "")
      else
        match findSplit (stripOuter tokens) with
        | some i =>
            .bin ((stripOuter tokens).getD i "")
              (parseToAST ((stripOuter tokens).take i))
              (parseToAST ((stripOuter tokens).drop (i + 1)))
        | none =>
            if (stripOuter tokens).headD "" = "¬" then
              .neg (parseToAST ((stripOuter tokens).drop 1))
            else .atom "ERR" := by
  have hstrip := stripOuter_length_le tokens
  show parseFuel tokens.length tokens = _
  cases hn : tokens.length with
  | zero =>
    have : tokens = [] := List.eq_nil_of_length_eq_zero hn
    subst this
    simp [parseFuel, stripOuter, stripOuterFuel]
  | succ n =>
    simp only [parseFuel]
    by_cases hz : (stripOuter tokens).length = 0
    · rw [if_pos hz, if_pos hz]
    rw [if_neg hz, if_neg hz]
    by_cases ho : (stripOuter tokens).length = 1
    · rw [if_pos ho, if_pos ho]
    rw [if_neg ho, if_neg ho]
    cases hs : findSplit (stripOuter tokens) with
    | some i =>
      have hi : i < (stripOuter tokens).length := findSplit_lt hs
      have ht : ((stripOuter tokens).take i).length = i := by
        simp only [List.length_take]; omega
      have hd : ((stripOuter tokens).drop (i + 1)).length =
          (stripOuter tokens).length - (i + 1) := by
        simp only [List.length_drop]
      dsimp only
      rw [show parseToAST ((stripOuter tokens).take i) =
            parseFuel ((stripOuter tokens).take i).length _ from rfl,
        show parseToAST ((stripOuter tokens).drop (i + 1)) =
            parseFuel ((stripOuter tokens).drop (i + 1)).length _ from rfl,
        parseFuel_stable n _ _ (by omega) le_rfl,
        parseFuel_stable n _ _ (by omega) le_rfl]
    | none =>
      dsimp only
      by_cases hne : (stripOuter tokens).headD "" = "¬"
      · rw [if_pos hne, if_pos hne]
        have hd : ((stripOuter tokens).drop 1).length =
            (stripOuter tokens).length - 1 := by
          simp only [List.length_drop]
        rw [show parseToAST ((stripOuter tokens).drop 1) =
              parseFuel ((stripOuter tokens).drop 1).length _ from rfl,
          parseFuel_stable n _ _ (by omega) le_rfl]
      · rw [if_neg hne, if_neg hne]

/-! ## Characterization of the split scan -/

/-- A head token that is not itself a candidate shifts the meaning of the
tail's scan state. -/
lemma scanSpec_shift {t : String} {rest : List String} {i : Nat} {mp : Nat}
    {si : Option Nat}
    (hguard : ¬(t ≠ ")" ∧ t ≠ "(" ∧ balR rest + 0 = 0 ∧ t ≠ "¬" ∧ PRECEDENCE t < 100))
    (h : ScanSpec rest (i + 1) mp si) : ScanSpec (t :: rest) i mp si := by
  have hc : candsB (t :: rest) 0 = (candsB rest 0).map (· + 1) := by
    simp only [candsB]
    rw [if_neg hguard]
  rcases h with ⟨hce, hmp, hsi⟩ | ⟨j, hj, hsi, hmp, hmin, hmax⟩
  · left
    refine ⟨?_, hmp, hsi⟩
    rw [hc, hce]
    rfl
  · right
    refine ⟨j + 1, ?_, ?_, ?_, ?_, ?_⟩
    · rw [hc]
      exact List.mem_map.2 ⟨j, hj, rfl⟩
    · rw [hsi]
      congr 1
      omega
    · rw [hmp]
      simp [List.getD_cons_succ]
    · intro k hk
      rw [hc] at hk
      rcases List.mem_map.1 hk with ⟨k2, hk2, rfl⟩
      simp only [List.getD_cons_succ]
      exact hmin k2 hk2
    · intro k hk
      rw [hc] at hk
      rcases List.mem_map.1 hk with ⟨k2, hk2, rfl⟩
      simp only [List.getD_cons_succ]
      intro he
      exact Nat.succ_le_succ (hmax k2 hk2 he)

/-- Full characterization of the scan: the final balance is the
right-to-left parenthesis balance, and the final `(minPrec, splitIdx)`
satisfy `ScanSpec`. -/
lemma fsAux_spec : ∀ (toks : List String) (i : Nat),
    (fsAux i toks).1 = balR toks ∧
      ScanSpec toks i (fsAux i toks).2.1 (fsAux i toks).2.2 := by
  intro toks
  induction toks with
  | nil =>
    intro i
    exact ⟨rfl, Or.inl ⟨rfl, rfl, rfl⟩⟩
  | cons t rest ih =>
    intro i
    obtain ⟨hbal, hspec⟩ := ih (i + 1)
    by_cases h1 : t = ")"
    · have hfs : fsAux i (t :: rest) =
          ((fsAux (i + 1) rest).1 + 1, (fsAux (i + 1) rest).2.1,
            (fsAux (i + 1) rest).2.2) := by
        simp only [fsAux]
        rw [if_pos h1]
      have h2 : t ≠ "(" := by subst h1; decide
      rw [hfs]
      refine ⟨?_, scanSpec_shift (fun hg => hg.1 h1) hspec⟩
      simp only [balR, pdelta, if_neg h2, if_pos h1]
      omega
    by_cases h2 : t = "("
    · have hfs : fsAux i (t :: rest) =
          ((fsAux (i + 1) rest).1 - 1, (fsAux (i + 1) rest).2.1,
            (fsAux (i + 1) rest).2.2) := by
        simp only [fsAux]
        rw [if_neg h1, if_pos h2]
      rw [hfs]
      refine ⟨?_, scanSpec_shift (fun hg => hg.2.1 h2) hspec⟩
      simp only [balR, pdelta, if_pos h2]
      omega
    have hbalg : balR (t :: rest) = balR rest := by
      simp only [balR, pdelta, if_neg h1, if_neg h2]
      omega
    by_cases h3 : (fsAux (i + 1) rest).1 = 0
    case neg =>
      have hfs : fsAux i (t :: rest) = fsAux (i + 1) rest := by
        simp only [fsAux]
        rw [if_neg h1, if_neg h2, if_neg h3]
      rw [hfs, hbalg]
      refine ⟨hbal, scanSpec_shift (fun hg => ?_) hspec⟩
      rw [hbal] at h3
      have := hg.2.2.1
      omega
    have hbr0 : balR rest = 0 := by rw [← hbal]; exact h3
    by_cases h4 : t = "¬"
    · have hfs : fsAux i (t :: rest) = ((fsAux (i + 1) rest).1,
          (fsAux (i + 1) rest).2.1, (fsAux (i + 1) rest).2.2) := by
        simp only [fsAux]
        rw [if_neg h1, if_neg h2, if_pos h3, if_pos h4]
      rw [hfs, hbalg]
      exact ⟨hbal, scanSpec_shift (fun hg => hg.2.2.2.1 h4) hspec⟩
    by_cases h5a : PRECEDENCE t < 100
    case neg =>
      have hfs : fsAux i (t :: rest) = ((fsAux (i + 1) rest).1,
          (fsAux (i + 1) rest).2.1, (fsAux (i + 1) rest).2.2) := by
        simp only [fsAux]
        rw [if_neg h1, if_neg h2, if_pos h3, if_neg h4, if_neg (fun hh => h5a hh.1)]
      rw [hfs, hbalg]
      exact ⟨hbal, scanSpec_shift (fun hg => h5a hg.2.2.2.2) hspec⟩
    have hG : t ≠ ")" ∧ t ≠ "(" ∧ balR rest + 0 = 0 ∧ t ≠ "¬" ∧ PRECEDENCE t < 100 :=
      ⟨h1, h2, by omega, h4, h5a⟩
    have hc : candsB (t :: rest) 0 = 0 :: (candsB rest 0).map (· + 1) := by
      simp only [candsB]
      rw [if_pos hG]
    by_cases h5b : PRECEDENCE t < (fsAux (i + 1) rest).2.1
    · -- the head becomes the new best split
      have hfs : fsAux i (t :: rest) =
          ((fsAux (i + 1) rest).1, PRECEDENCE t, some i) := by
        simp only [fsAux]
        rw [if_neg h1, if_neg h2, if_pos h3, if_neg h4, if_pos ⟨h5a, h5b⟩]
      rw [hfs, hbalg]
      refine ⟨hbal, Or.inr ⟨0, ?_, ?_, ?_, ?_, ?_⟩⟩
      · rw [hc]
        exact List.mem_cons_self _ _
      · simp
      · simp
      · intro k hk
        rw [hc] at hk
        rcases List.mem_cons.1 hk with rfl | hk'
        · exact le_rfl
        rcases List.mem_map.1 hk' with ⟨k2, hk2, rfl⟩
        simp only [List.getD_cons_zero, List.getD_cons_succ]
        rcases hspec with ⟨hce, hmp, -⟩ | ⟨jw, hjw, -, hmpw, hminw, -⟩
        · rw [hce] at hk2
          cases hk2
        · have := hminw k2 hk2
          rw [← hmpw] at this
          omega
      · intro k hk hpe
        rw [hc] at hk
        rcases List.mem_cons.1 hk with rfl | hk'
        · exact le_rfl
        rcases List.mem_map.1 hk' with ⟨k2, hk2, rfl⟩
        simp only [List.getD_cons_zero, List.getD_cons_succ] at hpe
        rcases hspec with ⟨hce, hmp, -⟩ | ⟨jw, hjw, -, hmpw, hminw, -⟩
        · rw [hce] at hk2
          cases hk2
        · have := hminw k2 hk2
          rw [← hmpw] at this
          omega
    · -- the head is a candidate but not better than the best in the tail
      have hfs : fsAux i (t :: rest) = ((fsAux (i + 1) rest).1,
          (fsAux (i + 1) rest).2.1, (fsAux (i + 1) rest).2.2) := by
        simp only [fsAux]
        rw [if_neg h1, if_neg h2, if_pos h3, if_neg h4, if_neg (fun hh => h5b hh.2)]
      rw [hfs, hbalg]
      refine ⟨hbal, ?_⟩
      rcases hspec with ⟨hce, hmp, hsi⟩ | ⟨j, hj, hsi, hmp, hmin, hmax⟩
      · rw [hmp] at h5b
        exact absurd h5a h5b
      right
      refine ⟨j + 1, ?_, ?_, ?_, ?_, ?_⟩
      · rw [hc]
        exact List.mem_cons_of_mem _ (List.mem_map.2 ⟨j, hj, rfl⟩)
      · rw [hsi]
        congr 1
        omega
      · rw [hmp]
        simp [List.getD_cons_succ]
      · intro k hk
        rw [hc] at hk
        rcases List.mem_cons.1 hk with rfl | hk'
        · simp only [List.getD_cons_succ, List.getD_cons_zero]
          rw [hmp] at h5b
          omega
        rcases List.mem_map.1 hk' with ⟨k2, hk2, rfl⟩
        simp only [List.getD_cons_succ]
        exact hmin k2 hk2
      · intro k hk hpe
        rw [hc] at hk
        rcases List.mem_cons.1 hk with rfl | hk'
        · omega
        rcases List.mem_map.1 hk' with ⟨k2, hk2, rfl⟩
        simp only [List.getD_cons_succ] at hpe
        exact Nat.succ_le_succ (hmax k2 hk2 hpe)

/-- `findSplit` is `none` exactly when there is no candidate. -/
lemma findSplit_eq_none_iff (toks : List String) :
    findSplit toks = none ↔ candsB toks 0 = [] := by
  obtain ⟨-, hspec⟩ := fsAux_spec toks 0
  unfold findSplit
  rcases hspec with ⟨hce, -, hsi⟩ | ⟨j, hj, hsi, -, -, -⟩
  · simp [hsi, hce]
  · simp only [hsi]
    constructor
    · intro h
      cases h
    · intro h
      rw [h] at hj
      cases hj

/-- When `findSplit` answers, the answer is a candidate of minimal
precedence, rightmost among candidates of that precedence. -/
lemma findSplit_eq_some {toks : List String} {i : Nat}
    (h : findSplit toks = some i) :
    i ∈ candsB toks 0 ∧
      (∀ k, k ∈ candsB toks 0 →
        PRECEDENCE (toks.getD i "") ≤ PRECEDENCE (toks.getD k "")) ∧
      (∀ k, k ∈ candsB toks 0 →
        PRECEDENCE (toks.getD k "") = PRECEDENCE (toks.getD i "") → k ≤ i) := by
  obtain ⟨-, hspec⟩ := fsAux_spec toks 0
  unfold findSplit at h
  rcases hspec with ⟨-, -, hsi⟩ | ⟨j, hj, hsi, -, hmin, hmax⟩
  · rw [hsi] at h
    cases h
  · rw [hsi] at h
    have : j = i := by
      injection h with h'
      omega
    subst this
    exact ⟨hj, hmin, hmax⟩

/-- If a candidate exists, `findSplit` answers. -/
lemma findSplit_isSome {toks : List String} (h : candsB toks 0 ≠ []) :
    ∃ i, findSplit toks = some i := by
  cases hfs : findSplit toks with
  | none => exact absurd ((findSplit_eq_none_iff toks).1 hfs) h
  | some i => exact ⟨i, rfl⟩

/-- Declarative reading of candidate membership: the position holds one
of the four binary operators and the tokens strictly to its right have
right-to-left balance `-b` (i.e. `0` at top level). -/
lemma mem_candsB_iff : ∀ (toks : List String) (b : Int) (j : Nat),
    j ∈ candsB toks b ↔
      (j < toks.length ∧ balR (toks.drop (j + 1)) + b = 0 ∧
        toks.getD j "" ∈ binOps) := by
  have hbin : ∀ t : String,
      (t ≠ ")" ∧ t ≠ "(" ∧ t ≠ "¬" ∧ PRECEDENCE t < 100) ↔ t ∈ binOps := by
    intro t
    constructor
    · rintro ⟨hp1, hp2, hp3, hp4⟩
      unfold PRECEDENCE at hp4
      split_ifs at hp4 with c1 c2 c3 c4 c5
      · exact absurd c1 hp3
      · simp [binOps, c2]
      · simp [binOps, c3]
      · simp [binOps, c4]
      · simp [binOps, c5]
      · omega
    · intro h
      simp only [binOps, List.mem_cons, List.not_mem_nil, or_false] at h
      rcases h with rfl | rfl | rfl | rfl <;>
        exact ⟨by decide, by decide, by decide, by decide⟩
  intro toks
  induction toks with
  | nil =>
    intro b j
    simp [candsB]
  | cons t rest ih =>
    intro b j
    simp only [candsB]
    by_cases hG : t ≠ ")" ∧ t ≠ "(" ∧ balR rest + b = 0 ∧ t ≠ "¬" ∧ PRECEDENCE t < 100
    · rw [if_pos hG]
      cases j with
      | zero =>
        simp only [List.length_cons, List.drop_succ_cons, List.drop_zero,
          List.getD_cons_zero]
        constructor
        · rintro -
          exact ⟨Nat.succ_pos _, hG.2.2.1,
            (hbin t).1 ⟨hG.1, hG.2.1, hG.2.2.2.1, hG.2.2.2.2⟩⟩
        · rintro -
          exact List.mem_cons_self _ _
      | succ j' =>
        have hstep : j' + 1 ∈ 0 :: (candsB rest b).map (· + 1) ↔
            j' ∈ candsB rest b := by
          simp
        rw [hstep, ih b j']
        simp only [List.length_cons, List.drop_succ_cons, List.getD_cons_succ]
        exact and_congr (Nat.succ_lt_succ_iff).symm Iff.rfl
    · rw [if_neg hG]
      cases j with
      | zero =>
        constructor
        · intro h
          rcases List.mem_map.1 h with ⟨a, -, ha⟩
          omega
        · rintro ⟨-, hb, ho⟩
          exfalso
          apply hG
          have hb' : balR rest + b = 0 := by simpa using hb
          have hbt := (hbin t).2 (by simpa using ho)
          exact ⟨hbt.1, hbt.2.1, hb', hbt.2.2.1, hbt.2.2.2⟩
      | succ j' =>
        have hstep : j' + 1 ∈ (candsB rest b).map (· + 1) ↔
            j' ∈ candsB rest b := by
          simp
        rw [hstep, ih b j']
        simp only [List.length_cons, List.drop_succ_cons, List.getD_cons_succ]
        exact and_congr (Nat.succ_lt_succ_iff).symm Iff.rfl

/-- Candidate membership coincides with the declarative predicate. -/
lemma isSplitCand_iff_mem (toks : List String) (j : Nat) :
    isSplitCand toks j ↔ j ∈ candsB toks 0 := by
  rw [mem_candsB_iff]
  unfold isSplitCand
  constructor
  · rintro ⟨h1, h2, h3⟩
    exact ⟨h1, by omega, h3⟩
  · rintro ⟨h1, h2, h3⟩
    exact ⟨h1, by omega, h3⟩

/-! ## Claim theorems -/

/-- **C3.**  Parser totality with designated failure value: `parseToAST`
is a total function (it is defined as one, with a termination bound
proved by `parseFuel_stable`), and it returns the parse-error atom
exactly when the stripped slice is empty, is the single verbatim token
`"ERR"`, or has at least two tokens but no split and no leading `¬`
(the structurally unresolvable case). -/
theorem parse_total_err_iff (tokens : List String) :
    parseToAST tokens = ASTNode.atom "ERR" ↔
      (stripOuter tokens = [] ∨ stripOuter tokens = ["ERR"] ∨
        (2 ≤ (stripOuter tokens).length ∧ findSplit (stripOuter tokens) = none ∧
          (stripOuter tokens).headD "" ≠ "¬")) := by
  rw [parseToAST_eq]
  by_cases hz : (stripOuter tokens).length = 0
  · rw [if_pos hz]
    have he : stripOuter tokens = [] := List.eq_nil_of_length_eq_zero hz
    simp [he]
  rw [if_neg hz]
  by_cases ho : (stripOuter tokens).length = 1
  · rw [if_pos ho]
    obtain ⟨t, ht⟩ : ∃ t, stripOuter tokens = [t] :=
      List.length_eq_one.1 ho
    rw [ht]
    simp only [List.headD]
    constructor
    · intro h
      injection h with h'
      subst h'
      exact Or.inr (Or.inl rfl)
    · rintro (h | h | ⟨h2, -, -⟩)
      · exact absurd h (by simp)
      · injection h with h1 h2
        subst h1
        rfl
      · simp at h2
  rw [if_neg ho]
  cases hs : findSplit (stripOuter tokens) with
  | some i =>
    dsimp only
    constructor
    · intro h
      exact ASTNode.noConfusion h
    · rintro (h | h | ⟨-, h3, -⟩)
      · rw [h] at hz
        simp at hz
      · rw [h] at ho
        simp at ho
      · cases h3
  | none =>
    dsimp only
    by_cases hne : (stripOuter tokens).headD "" = "¬"
    · rw [if_pos hne]
      constructor
      · intro h
        exact ASTNode.noConfusion h
      · rintro (h | h | ⟨-, -, h3⟩)
        · rw [h] at hz
          simp at hz
        · rw [h] at ho
          simp at ho
        · exact absurd hne h3
    · rw [if_neg hne]
      constructor
      · rintro -
        exact Or.inr (Or.inr ⟨by omega, rfl, hne⟩)
      · rintro -
        rfl

/-- **C10.**  A slice that strips to a single token parses to an atom
carrying that token verbatim, whatever the token is. -/
theorem parse_singleton_atom (tokens : List String) (t : String)
    (h : stripOuter tokens = [t]) : parseToAST tokens = ASTNode.atom t := by
  rw [parseToAST_eq, h]
  rfl

/-- Witness for `parse_singleton_atom`: a lone operator and a lone
parenthesis both parse to verbatim atoms, never to the error atom. -/
theorem parse_singleton_atom_witness :
    stripOuter ["∧"] = ["∧"] ∧ parseToAST ["∧"] = ASTNode.atom "∧" ∧
      stripOuter ["("] = ["("] ∧ parseToAST ["("] = ASTNode.atom "(" :=
  ⟨by decide, parse_singleton_atom ["∧"] "∧" (by decide), by decide,
    parse_singleton_atom ["("] "(" (by decide)⟩

/-- **C2 (amended).**  Split selection: whenever a balance-zero binary
operator exists, `findSplit` returns a balance-zero binary operator
position (never `¬`) of lowest precedence, rightmost among occurrences of
the same operator; when none exists it returns `none`; the parser builds
a binary node at the returned split; and `P ∨ Q ∧ R` canonicalizes to
`(P ∨ (Q ∧ R))`.  Repeated occurrences of one operator therefore
associate to the **left** (the rightmost occurrence becomes the root). -/
theorem split_selection :
    (∀ toks : List String,
      ((∃ j, isSplitCand toks j) →
        ∃ i, findSplit toks = some i ∧ isSplitCand toks i ∧
          (∀ j, isSplitCand toks j →
            PRECEDENCE (toks.getD i "") ≤ PRECEDENCE (toks.getD j "")) ∧
          (∀ j, isSplitCand toks j → toks.getD j "" = toks.getD i "" → j ≤ i)) ∧
      ((¬ ∃ j, isSplitCand toks j) → findSplit toks = none)) ∧
    (∀ (tokens : List String) (i : Nat),
      findSplit (stripOuter tokens) = some i →
      2 ≤ (stripOuter tokens).length →
      parseToAST tokens = ASTNode.bin ((stripOuter tokens).getD i "")
        (parseToAST ((stripOuter tokens).take i))
        (parseToAST ((stripOuter tokens).drop (i + 1)))) ∧
    (parseToAST ["P", "∨", "Q", "∧", "R"]).toFullString = "(P ∨ (Q ∧ R))" := by
  refine ⟨?_, ?_, by decide⟩
  · intro toks
    constructor
    · rintro ⟨j, hj⟩
      have hj' : j ∈ candsB toks 0 := (isSplitCand_iff_mem toks j).1 hj
      obtain ⟨i, hi⟩ := findSplit_isSome (fun he => by rw [he] at hj'; cases hj')
      obtain ⟨him, hmin, hmax⟩ := findSplit_eq_some hi
      refine ⟨i, hi, (isSplitCand_iff_mem toks i).2 him, ?_, ?_⟩
      · intro k hk
        exact hmin k ((isSplitCand_iff_mem toks k).1 hk)
      · intro k hk he
        exact hmax k ((isSplitCand_iff_mem toks k).1 hk) (by rw [he])
    · intro hne
      rw [findSplit_eq_none_iff]
      by_contra hcne
      obtain ⟨j, hj⟩ := List.exists_mem_of_ne_nil _ hcne
      exact hne ⟨j, (isSplitCand_iff_mem toks j).2 hj⟩
  · intro tokens i hs h2
    rw [parseToAST_eq, if_neg (by omega), if_neg (by omega), hs]

/-- Witness for `split_selection`: on `P ∨ Q ∧ R` a candidate exists and
the selected split is the `∨` at index 1. -/
theorem split_selection_witness :
    (∃ j, isSplitCand ["P", "∨", "Q", "∧", "R"] j) ∧
      findSplit (stripOuter ["P", "∨", "Q", "∧", "R"]) = some 1 ∧
      2 ≤ (stripOuter ["P", "∨", "Q", "∧", "R"]).length ∧
      parseToAST ["P", "∨", "Q", "∧", "R"] =
        ASTNode.bin "∨" (parseToAST ["P"]) (parseToAST ["Q", "∧", "R"]) := by
  refine ⟨⟨1, by decide⟩, by decide, by decide, ?_⟩
  have h := split_selection.2.1 ["P", "∨", "Q", "∧", "R"] 1 (by decide) (by decide)
  exact h

/-- **C2, counterexample to the claim as stated.**  Repeated occurrences
of the same operator do *not* associate to the right: splitting at the
rightmost occurrence puts it at the root, so `P ⇒ Q ⇒ R` parses as
`((P ⇒ Q) ⇒ R)`, not `(P ⇒ (Q ⇒ R))`. -/
theorem split_right_assoc_counterexample :
    (parseToAST ["P", "⇒", "Q", "⇒", "R"]).toFullString = "((P ⇒ Q) ⇒ R)" ∧
      (parseToAST ["P", "⇒", "Q", "⇒", "R"]).toFullString ≠ "(P ⇒ (Q ⇒ R))" := by
  constructor
  · decide
  · decide

/-! ## Truth-table row lemmas -/

/-- Positions in an enumeration are bounded by the length. -/
lemma mem_enumFrom_fst_lt {α : Type} :
    ∀ (l : List α) (s : Nat) (p : Nat × α), p ∈ l.enumFrom s →
      s ≤ p.1 ∧ p.1 < s + l.length := by
  intro l
  induction l with
  | nil => intro s p h; simp at h
  | cons a l ih =>
    intro s p h
    rw [List.enumFrom_cons] at h
    rcases List.mem_cons.1 h with rfl | h'
    · simp
    · have := ih (s + 1) p h'
      simp only [List.length_cons]
      omega

/-- Mapping an index-independent pair constructor over an enumeration. -/
lemma enumFrom_map_pair {α β : Type} (c : β) :
    ∀ (l : List α) (s : Nat),
      (l.enumFrom s).map (fun p => (p.2, c)) = l.map (fun v => (v, c)) := by
  intro l
  induction l with
  | nil => intro s; rfl
  | cons a l ih =>
    intro s
    rw [List.enumFrom_cons]
    simp only [List.map_cons]
    rw [ih (s + 1)]

/-- Bit extraction from the all-ones assignment integer: every bit below
`n` of `2 ^ n - 1` is set. -/
lemma two_pow_sub_one_bit {n k : Nat} (hk : k < n) :
    ((2 ^ n - 1) >>> k) &&& 1 ≠ 0 := by
  rw [Nat.shiftRight_eq_div_pow, Nat.and_one_is_mod]
  have hb : 0 < 2 ^ k := Nat.two_pow_pos k
  have hnk : 0 < 2 ^ (n - k) := Nat.two_pow_pos (n - k)
  have hmul : 2 ^ (n - k) * 2 ^ k = 2 ^ n := by
    rw [← pow_add]
    congr 1
    omega
  have hdiv : (2 ^ n - 1) / 2 ^ k = 2 ^ (n - k) - 1 := by
    have hle : 2 ^ k ≤ 2 ^ n := by
      rw [← hmul]
      exact Nat.le_mul_of_pos_left _ hnk
    have heq : 2 ^ n - 1 = (2 ^ k - 1) + (2 ^ (n - k) - 1) * 2 ^ k := by
      rw [Nat.sub_mul, hmul]
      omega
    rw [heq, Nat.add_mul_div_right _ _ hb, Nat.div_eq_of_lt (by omega)]
    omega
  rw [hdiv]
  have h1 : 1 ≤ n - k := by omega
  have h2 : 2 ^ (n - k) = 2 * 2 ^ (n - k - 1) := by
    rw [← pow_succ']
    congr 1
    omega
  have h3 : 1 ≤ 2 ^ (n - k - 1) := Nat.one_le_two_pow
  rw [h2]
  omega

/-- Within the 32-bit-safe regime the wrapped shift is the plain power. -/
lemma rowCount_eq_pow {n : Nat} (h : n ≤ 30) : rowCount n = 2 ^ n := by
  unfold rowCount jsShl1 toInt32
  rw [Nat.mod_eq_of_lt (show n < 32 by omega)]
  have h30 : (2 : Nat) ^ n ≤ 2 ^ 30 := Nat.pow_le_pow_right (by omega) h
  have e30 : (2 : Nat) ^ 30 = 1073741824 := by norm_num
  have e31 : (2 : Nat) ^ 31 = 2147483648 := by norm_num
  have e32 : (2 : Nat) ^ 32 = 4294967296 := by norm_num
  have hmod : 2 ^ n % 2 ^ 32 = 2 ^ n := Nat.mod_eq_of_lt (by omega)
  rw [hmod, if_pos (by omega)]
  omega

/-- The all-ones assignment is below `2^32` and its shifts are genuine
when at most 30 variables are in play. -/
lemma rowInputsFor_ones (vars : List String) (h : vars.length ≤ 30) :
    rowInputsFor vars (2 ^ vars.length - 1) = vars.map (fun v => (v, 1)) := by
  unfold rowInputsFor
  rw [← enumFrom_map_pair (1 : Nat) vars 0]
  apply List.map_congr_left
  intro p hp
  have hlt := (mem_enumFrom_fst_lt vars 0 p hp).2
  have h30 : (2 : Nat) ^ vars.length ≤ 2 ^ 30 := Nat.pow_le_pow_right (by omega) h
  have e30 : (2 : Nat) ^ 30 = 1073741824 := by norm_num
  have e32 : (2 : Nat) ^ 32 = 4294967296 := by norm_num
  have hmod : (2 ^ vars.length - 1) % 2 ^ 32 = 2 ^ vars.length - 1 :=
    Nat.mod_eq_of_lt (by omega)
  have hsmod : (vars.length - 1 - p.1) % 32 = vars.length - 1 - p.1 :=
    Nat.mod_eq_of_lt (by omega)
  rw [hmod, hsmod, if_pos (two_pow_sub_one_bit (by omega))]

/-- The row for assignment integer `0` clears every variable. -/
lemma rowInputsFor_zero (vars : List String) :
    rowInputsFor vars 0 = vars.map (fun v => (v, 0)) := by
  unfold rowInputsFor
  rw [← enumFrom_map_pair (0 : Nat) vars 0]
  apply List.map_congr_left
  intro p hp
  rw [if_neg (by simp)]

/-- `List.headD` as `getD 0`. -/
lemma headD_eq_getD_zero {α : Type} (l : List α) (d : α) :
    l.headD d = l.getD 0 d := by
  cases l <;> rfl

/-- Pointwise description of the generated rows: row `j` is the row of
assignment integer `rowCount n - 1 - j`. -/
lemma generateTableRows_getD (expr : String) (hne : parseVars expr ≠ [])
    (j : Nat) (hj : j < rowCount (parseVars expr).length) :
    (generateTableRows expr).getD j [] =
      rowInputsFor (parseVars expr)
        (rowCount (parseVars expr).length - 1 - j) := by
  unfold generateTableRows
  rw [if_neg hne]
  have hlen : (((List.range (rowCount (parseVars expr).length)).reverse).map
      (rowInputsFor (parseVars expr))).length =
      rowCount (parseVars expr).length := by
    simp
  have hj' : j < (((List.range (rowCount (parseVars expr).length)).reverse).map
      (rowInputsFor (parseVars expr))).length := by omega
  rw [List.getD_eq_getElem?_getD, List.getElem?_eq_getElem hj']
  simp only [Option.getD_some, List.getElem_map, List.getElem_reverse,
    List.getElem_range, List.length_reverse, List.length_range]

/-- **C5.**  Truth-table enumeration: a formula with no extracted
variables yields no rows; otherwise the row count is the 32-bit value of
the JS shift `1 << n`, which for the safe regime `n ≤ 30` is exactly
`2 ^ n` rows, enumerated by the assignment integer counting down from
`2 ^ n - 1` (so the first row sets every variable and the last clears
every variable). -/
theorem truthtable_rows (expr : String) :
    (parseVars expr = [] → generateTableRows expr = []) ∧
    (parseVars expr ≠ [] →
      (generateTableRows expr).length = rowCount (parseVars expr).length ∧
      ((parseVars expr).length ≤ 30 →
        (generateTableRows expr).length = 2 ^ (parseVars expr).length ∧
        (generateTableRows expr).headD [] =
          (parseVars expr).map (fun v => (v, 1)) ∧
        (generateTableRows expr).getLastD [] =
          (parseVars expr).map (fun v => (v, 0)) ∧
        (∀ j, j < 2 ^ (parseVars expr).length →
          (generateTableRows expr).getD j [] =
            rowInputsFor (parseVars expr)
              (2 ^ (parseVars expr).length - 1 - j)))) := by
  constructor
  · intro h
    unfold generateTableRows
    rw [if_pos h]
  · intro hne
    have hlen : (generateTableRows expr).length =
        rowCount (parseVars expr).length := by
      unfold generateTableRows
      rw [if_neg hne]
      simp
    refine ⟨hlen, ?_⟩
    intro h30
    have hrc := rowCount_eq_pow h30
    have hpos : 0 < 2 ^ (parseVars expr).length := Nat.two_pow_pos _
    have hget : ∀ j, j < 2 ^ (parseVars expr).length →
        (generateTableRows expr).getD j [] =
          rowInputsFor (parseVars expr)
            (2 ^ (parseVars expr).length - 1 - j) := by
      intro j hj
      rw [generateTableRows_getD expr hne j (by omega), hrc]
    refine ⟨by rw [hlen, hrc], ?_, ?_, hget⟩
    · rw [headD_eq_getD_zero, hget 0 hpos, Nat.sub_zero,
        rowInputsFor_ones _ h30]
    · have hlast : (generateTableRows expr).getLastD [] =
          (generateTableRows expr).getD ((generateTableRows expr).length - 1) [] := by
        rw [List.getLastD_eq_getLast?, List.getLast?_eq_getElem?,
          List.getD_eq_getElem?_getD]
      rw [hlast, hlen, hrc, hget _ (by omega)]
      have hz : 2 ^ (parseVars expr).length - 1 -
          (2 ^ (parseVars expr).length - 1) = 0 := by omega
      rw [hz, rowInputsFor_zero]

/-- Counterexample for the unamended C5: a formula with 31 distinct
variable names — the 32-bit shift `1 << 31` wraps to `-2147483648`, the
row loop never runs, and the generator emits no rows instead of
`2 ^ 31`. -/
theorem truthtable_rows_counterexample :
    (parseVars
        "A B C D E G H I J K L M N O P Q R S U V W X Y Z AA AB AC AD AE AG AH").length
      = 31 ∧
    generateTableRows
        "A B C D E G H I J K L M N O P Q R S U V W X Y Z AA AB AC AD AE AG AH"
      = [] ∧
    (generateTableRows
        "A B C D E G H I J K L M N O P Q R S U V W X Y Z AA AB AC AD AE AG AH").length
      ≠ 2 ^ (parseVars
        "A B C D E G H I J K L M N O P Q R S U V W X Y Z AA AB AC AD AE AG AH").length := by
  refine ⟨by decide, by decide, by decide⟩

/-- Witness for `truthtable_rows` on `P ∧ Q`: two variables, four rows,
all-true first, all-false last. -/
theorem truthtable_rows_witness :
    parseVars "P ∧ Q" ≠ [] ∧
      (generateTableRows "P ∧ Q").length = 2 ^ (parseVars "P ∧ Q").length ∧
      (generateTableRows "P ∧ Q").headD [] =
        (parseVars "P ∧ Q").map (fun v => (v, 1)) ∧
      (generateTableRows "P ∧ Q").getLastD [] =
        (parseVars "P ∧ Q").map (fun v => (v, 0)) := by
  have h := ((truthtable_rows "P ∧ Q").2 (by decide)).2 (by decide)
  exact ⟨by decide, h.1, h.2.1, h.2.2.1⟩

/-! ## Evaluator lemmas -/

/-- A key bound to no pair of the association list looks up to `none`. -/
lemma lookup_eq_none_of_forall {values : List (String × Bool)} {k : String}
    (h : ∀ kv ∈ values, kv.1 ≠ k) : values.lookup k = none := by
  induction values with
  | nil => rfl
  | cons a l ih =>
    have ha : a.1 ≠ k := h a (List.mem_cons_self a l)
    have hbeq : (k == a.1) = false := by
      simp only [beq_eq_false_iff_ne, ne_eq]
      exact fun he => ha he.symm
    rw [List.lookup, hbeq]
    exact ih fun kv hkv => h kv (List.mem_cons_of_mem a hkv)

/-- **C6.**  Evaluator totality and designated defaults: the evaluator
always produces a boolean; the parse-error atom evaluates to `false`
under any assignment of real variables; an atom absent from the
assignment (and not a literal) evaluates to `false`; and the literals
`1`/`T` and `0`/`F` evaluate to `true` and `false`. -/
theorem evaluator_totality :
    (∀ (formula : String) (values : List (String × Bool)),
      solveProposition formula values = true ∨
        solveProposition formula values = false) ∧
    (∀ values : List (String × Bool), (∀ kv ∈ values, kv.1 ∈ VARS) →
      evalAST values (ASTNode.atom "ERR") = false) ∧
    (∀ (values : List (String × Bool)) (v : String), v ≠ "1" → v ≠ "T" →
      values.lookup (toUpperStr v) = none →
      evalAST values (ASTNode.atom v) = false) ∧
    (∀ values : List (String × Bool),
      evalAST values (ASTNode.atom "1") = true ∧
      evalAST values (ASTNode.atom "T") = true ∧
      evalAST values (ASTNode.atom "0") = false ∧
      evalAST values (ASTNode.atom "F") = false) := by
  refine ⟨?_, ?_, ?_, ?_⟩
  · intro formula values
    cases solveProposition formula values
    · exact Or.inr rfl
    · exact Or.inl rfl
  · intro values hvars
    have hnone : values.lookup "ERR" = none := by
      apply lookup_eq_none_of_forall
      intro kv hkv he
      have := hvars kv hkv
      rw [he] at this
      revert this
      decide
    have hup : toUpperStr "ERR" = "ERR" := by decide
    simp only [evalAST, hup, hnone]
    rfl
  · intro values v h1 hT hnone
    simp only [evalAST]
    rw [if_neg (by rintro (rfl | rfl) <;> simp_all), hnone]
    by_cases h0 : v = "0" ∨ v = "F"
    · rw [if_pos h0]
    · rw [if_neg h0]
      rfl
  · intro values
    refine ⟨rfl, rfl, rfl, rfl⟩

/-- Witness for `evaluator_totality`: the error atom and a missing
variable both evaluate to `false` at concrete assignments. -/
theorem evaluator_totality_witness :
    evalAST [("P", true)] (ASTNode.atom "ERR") = false ∧
      evalAST [] (ASTNode.atom "Q") = false ∧
      (solveProposition "P ⇒ Q" [("P", true)] = true ∨
        solveProposition "P ⇒ Q" [("P", true)] = false) :=
  ⟨evaluator_totality.2.1 [("P", true)] (by decide),
    evaluator_totality.2.2.1 [] "Q" (by decide) (by decide) (by decide),
    evaluator_totality.1 "P ⇒ Q" [("P", true)]⟩

/-! ## Sub-expression extraction lemmas -/

/-- Membership after a `Set.add`. -/
lemma mem_addUnique (l : List String) (s x : String) :
    x ∈ addUnique l s ↔ x ∈ l ∨ x = s := by
  unfold addUnique
  split_ifs with h
  · constructor
    · exact Or.inl
    · rintro (hx | rfl)
      · exact hx
      · exact h
  · simp

/-- `Set.add` preserves distinctness. -/
lemma nodup_addUnique (l : List String) (s : String) (h : l.Nodup) :
    (addUnique l s).Nodup := by
  unfold addUnique
  split_ifs with hs
  · exact h
  · simp [List.nodup_append, h, hs]

/-- What the extractor accumulates: the renderings of the compound
subtrees, on top of whatever the accumulator already held. -/
lemma mem_getSubExpressions : ∀ (t : ASTNode) (list : List String) (s : String),
    s ∈ getSubExpressions t list ↔
      s ∈ list ∨ ∃ u, u ∈ subtrees t ∧ isCompound u = true ∧ u.toFullString = s := by
  intro t
  induction t with
  | atom v =>
    intro list s
    simp [getSubExpressions, subtrees, isCompound]
  | neg l ih =>
    intro list s
    simp only [getSubExpressions, subtrees]
    rw [ih]
    rw [mem_addUnique]
    constructor
    · rintro ((hs | rfl) | ⟨u, hu, hc, hr⟩)
      · exact Or.inl hs
      · exact Or.inr ⟨ASTNode.neg l, List.mem_cons_self _ _, rfl, rfl⟩
      · exact Or.inr ⟨u, List.mem_cons_of_mem _ hu, hc, hr⟩
    · rintro (hs | ⟨u, hu, hc, hr⟩)
      · exact Or.inl (Or.inl hs)
      · rcases List.mem_cons.1 hu with rfl | hu'
        · exact Or.inl (Or.inr hr.symm)
        · exact Or.inr ⟨u, hu', hc, hr⟩
  | bin v l r ihl ihr =>
    intro list s
    simp only [getSubExpressions, subtrees]
    rw [ihr, ihl, mem_addUnique]
    constructor
    · rintro (((hs | rfl) | ⟨u, hu, hc, hr⟩) | ⟨u, hu, hc, hr⟩)
      · exact Or.inl hs
      · exact Or.inr ⟨ASTNode.bin v l r, List.mem_cons_self _ _, rfl, rfl⟩
      · exact Or.inr ⟨u, List.mem_cons_of_mem _ (List.mem_append_left _ hu), hc, hr⟩
      · exact Or.inr ⟨u, List.mem_cons_of_mem _ (List.mem_append_right _ hu), hc, hr⟩
    · rintro (hs | ⟨u, hu, hc, hr⟩)
      · exact Or.inl (Or.inl (Or.inl hs))
      · rcases List.mem_cons.1 hu with rfl | hu'
        · exact Or.inl (Or.inl (Or.inr hr.symm))
        · rcases List.mem_append.1 hu' with hul | hur
          · exact Or.inl (Or.inr ⟨u, hul, hc, hr⟩)
          · exact Or.inr ⟨u, hur, hc, hr⟩

/-- The extractor never duplicates a rendering. -/
lemma nodup_getSubExpressions : ∀ (t : ASTNode) (list : List String),
    list.Nodup → (getSubExpressions t list).Nodup := by
  intro t
  induction t with
  | atom v => intro list h; exact h
  | neg l ih => intro list h; exact ih _ (nodup_addUnique _ _ h)
  | bin v l r ihl ihr =>
    intro list h
    exact ihr _ (ihl _ (nodup_addUnique _ _ h))

/-- **C8.**  Sub-expression extraction collects exactly the canonical
renderings of the negation and binary subtrees (atoms contribute
nothing), each rendering once; on the tree of `(P ∧ Q)` the result is
exactly `{"(P ∧ Q)"}`. -/
theorem subexpr_extraction :
    (∀ (t : ASTNode) (s : String),
      s ∈ getSubExpressions t [] ↔
        ∃ u, u ∈ subtrees t ∧ isCompound u = true ∧ u.toFullString = s) ∧
    (∀ t : ASTNode, (getSubExpressions t []).Nodup) ∧
    getSubExpressions (parseToAST (tokenize "(P ∧ Q)")) [] = ["(P ∧ Q)"] := by
  refine ⟨?_, ?_, by decide⟩
  · intro t s
    rw [mem_getSubExpressions]
    simp
  · intro t
    exact nodup_getSubExpressions t [] List.nodup_nil

/-! ## Reduction-engine lemmas -/

/-- `candAt` only answers with its own index. -/
lemma candAt_some_fst {tokens : List String} {a i p : Nat}
    (h : candAt tokens a = some (i, p)) : a = i := by
  unfold candAt at h
  split_ifs at h
  all_goals
    first
      | exact Option.noConfusion h
      | (injection h with h'
         rw [Prod.mk.injEq] at h'
         exact h'.1)

/-- Candidate membership unpacked. -/
lemma mem_candidatesOf {tokens : List String} {i p : Nat} :
    (i, p) ∈ candidatesOf tokens ↔
      i < tokens.length ∧ candAt tokens i = some (i, p) := by
  unfold candidatesOf
  rw [List.mem_filterMap]
  constructor
  · rintro ⟨a, ha, hc⟩
    have := candAt_some_fst hc
    subst this
    exact ⟨List.mem_range.1 ha, hc⟩
  · rintro ⟨hi, hc⟩
    exact ⟨i, List.mem_range.2 hi, hc⟩

/-- A candidate's recorded precedence is the precedence of its token. -/
lemma candAt_prec {tokens : List String} {i p : Nat}
    (h : candAt tokens i = some (i, p)) :
    p = PRECEDENCE (tokens.getD i "") := by
  unfold candAt at h
  split_ifs at h
  all_goals
    first
      | exact Option.noConfusion h
      | (injection h with h'
         rw [Prod.mk.injEq] at h'
         exact h'.2.symm)

/-- Elements bound the running `foldl max`. -/
lemma le_foldl_max : ∀ (l : List Nat) (a x : Nat), x ∈ l → x ≤ l.foldl max a := by
  intro l
  induction l with
  | nil => intro a x h; cases h
  | cons b l ih =>
    intro a x h
    rcases List.mem_cons.1 h with rfl | h'
    · calc x ≤ max a x := le_max_right a x
        _ ≤ l.foldl max (max a x) := by
          clear ih h
          induction l generalizing a x with
          | nil => exact le_rfl
          | cons c l ih2 =>
            calc max a x ≤ max (max a x) c := le_max_left _ _
              _ ≤ _ := ih2 _ _
    · exact ih (max a b) x h'

/-- **C4.**  Strict reduction ordering: a reducible token of
lower-than-maximal rank is rejected with the advisory message and leaves
the history unchanged; a reducible token of maximal rank fires and
appends one new state; and on `(1∧0)∨1` the `∨` is rejected while the
`∧` is reducible, the `∧` yields `0 ∨ 1`, after which the `∨` reduces to
`1`. -/
theorem strict_reduction_ordering :
    (∀ (history tokens : List String) (idx p : Nat),
      (idx, p) ∈ candidatesOf tokens →
      PRECEDENCE (tokens.getD idx "") < maxPrecOf tokens →
      handleInteraction history idx tokens = (history, orderWarning)) ∧
    (∀ (history tokens : List String) (idx p : Nat),
      (idx, p) ∈ candidatesOf tokens →
      PRECEDENCE (tokens.getD idx "") = maxPrecOf tokens →
      ∃ s, handleInteraction history idx tokens = (history ++ [s], "")) ∧
    (∀ history : List String,
      handleInteraction history 3 ["1", "∧", "0", "∨", "1"] = (history, orderWarning) ∧
      handleInteraction history 1 ["1", "∧", "0", "∨", "1"] =
        (history ++ ["0 ∨ 1"], "") ∧
      handleInteraction (history ++ ["0 ∨ 1"]) 1 ["0", "∨", "1"] =
        (history ++ ["0 ∨ 1", "1"], "")) := by
  have hne : ∀ {tokens : List String} {idx p : Nat},
      (idx, p) ∈ candidatesOf tokens → candidatesOf tokens ≠ [] := by
    intro tokens idx p hm he
    rw [he] at hm
    cases hm
  refine ⟨?_, ?_, ?_⟩
  · intro history tokens idx p hm hlt
    unfold handleInteraction
    rw [if_neg (hne hm), if_pos hlt]
  · intro history tokens idx p hm hmax
    unfold handleInteraction
    rw [if_neg (hne hm), if_neg (by rw [hmax]; exact lt_irrefl _)]
    by_cases ht : tokens.getD idx "" = "¬"
    · rw [if_pos ht]
      exact ⟨_, rfl⟩
    · rw [if_neg ht]
      exact ⟨_, rfl⟩
  · intro history
    refine ⟨rfl, rfl, ?_⟩
    have h3 : handleInteraction (history ++ ["0 ∨ 1"]) 1 ["0", "∨", "1"] =
        ((history ++ ["0 ∨ 1"]) ++ ["1"], "") := rfl
    rw [h3, List.append_assoc]
    rfl

/-- Witness for `strict_reduction_ordering` at the claim's own input. -/
theorem strict_reduction_ordering_witness :
    (3, 3) ∈ candidatesOf ["1", "∧", "0", "∨", "1"] ∧
      PRECEDENCE (["1", "∧", "0", "∨", "1"].getD 3 "") <
        maxPrecOf ["1", "∧", "0", "∨", "1"] ∧
      handleInteraction [] 3 ["1", "∧", "0", "∨", "1"] = ([], orderWarning) ∧
      (1, 4) ∈ candidatesOf ["1", "∧", "0", "∨", "1"] ∧
      PRECEDENCE (["1", "∧", "0", "∨", "1"].getD 1 "") =
        maxPrecOf ["1", "∧", "0", "∨", "1"] ∧
      (∃ s, handleInteraction [] 1 ["1", "∧", "0", "∨", "1"] = ([] ++ [s], "")) :=
  ⟨by decide, by decide,
    strict_reduction_ordering.1 [] ["1", "∧", "0", "∨", "1"] 3 3 (by decide) (by decide),
    by decide, by decide,
    strict_reduction_ordering.2.1 [] ["1", "∧", "0", "∨", "1"] 1 4 (by decide) (by decide)⟩

/-! ## Normalization lemmas -/

/-- A successful pattern match consumes at least three characters. -/
lemma matchParenLit_length : ∀ {l rest : List Char} {d : Char},
    matchParenLit l = some (d, rest) → rest.length + 3 ≤ l.length := by
  intro l rest d h
  match l with
  | [] => cases h
  | c :: cs =>
    simp only [matchParenLit] at h
    split_ifs at h with hc
    · have h1 : (cs.dropWhile isWs).length ≤ cs.length :=
        (List.dropWhile_sublist _).length_le
      cases hd : cs.dropWhile isWs with
      | nil => rw [hd] at h; cases h
      | cons d' cs2 =>
        rw [hd] at h
        dsimp only at h
        split_ifs at h with hdd
        · have h2 : (cs2.dropWhile isWs).length ≤ cs2.length :=
            (List.dropWhile_sublist _).length_le
          cases he : cs2.dropWhile isWs with
          | nil => rw [he] at h; cases h
          | cons e cs4 =>
            rw [he] at h
            dsimp only at h
            split_ifs at h with hee
            injection h with h'
            rw [Prod.mk.injEq] at h'
            rw [← h'.2]
            have hl1 : cs2.length + 1 ≤ cs.length := by
              have := congrArg List.length hd
              simp at this
              omega
            have hl2 : cs4.length + 1 ≤ cs2.length := by
              have := congrArg List.length he
              simp at this
              omega
            simp only [List.length_cons]
            omega

/-- One replace pass never lengthens the character list. -/
lemma replacePassFuel_length_le : ∀ (f : Nat) (cs : List Char),
    (replacePassFuel f cs).length ≤ cs.length := by
  intro f
  induction f with
  | zero => intro cs; exact le_rfl
  | succ f ih =>
    intro cs
    cases cs with
    | nil => simp [replacePassFuel]
    | cons c cs =>
      simp only [replacePassFuel]
      cases hm : matchParenLit (c :: cs) with
      | some p =>
        obtain ⟨d, rest⟩ := p
        dsimp only
        have := matchParenLit_length hm
        have := ih rest
        simp only [List.length_cons] at *
        omega
      | none =>
        dsimp only
        have := ih cs
        simp only [List.length_cons]
        omega

/-- The replace pass is insensitive to any sufficiently large fuel. -/
lemma replacePassFuel_stable : ∀ (f₁ f₂ : Nat) (cs : List Char),
    cs.length ≤ f₁ → cs.length ≤ f₂ →
    replacePassFuel f₁ cs = replacePassFuel f₂ cs := by
  intro f₁
  induction f₁ with
  | zero =>
    intro f₂ cs h1 h2
    have : cs = [] := List.eq_nil_of_length_eq_zero (by omega)
    subst this
    cases f₂ <;> rfl
  | succ f₁ ih =>
    intro f₂ cs h1 h2
    cases cs with
    | nil => cases f₂ <;> rfl
    | cons c cs =>
      cases f₂ with
      | zero => simp at h2
      | succ f₂ =>
        simp only [replacePassFuel]
        cases hm : matchParenLit (c :: cs) with
        | some p =>
          obtain ⟨d, rest⟩ := p
          dsimp only
          have := matchParenLit_length hm
          simp only [List.length_cons] at h1 h2 this
          rw [ih f₂ rest (by omega) (by omega)]
        | none =>
          dsimp only
          simp only [List.length_cons] at h1 h2
          rw [ih f₂ cs (by omega) (by omega)]

/-- One-step unfolding of `replacePass`. -/
lemma replacePass_eq (c : Char) (cs : List Char) :
    replacePass (c :: cs) =
      match matchParenLit (c :: cs) with
      | some (d, rest) => d :: replacePass rest
      | none => c :: replacePass cs := by
  show replacePassFuel (c :: cs).length (c :: cs) = _
  simp only [List.length_cons, replacePassFuel]
  cases hm : matchParenLit (c :: cs) with
  | some p =>
    obtain ⟨d, rest⟩ := p
    dsimp only
    have := matchParenLit_length hm
    simp only [List.length_cons] at this
    exact congrArg (d :: ·) (replacePassFuel_stable _ _ rest (by omega) le_rfl)
  | none =>
    dsimp only
    exact congrArg (c :: ·) (replacePassFuel_stable _ _ cs (by omega) le_rfl)

/-- A pass either changes nothing or shortens by at least two. -/
lemma replacePass_fix_or_shrink : ∀ (cs : List Char),
    replacePass cs = cs ∨ (replacePass cs).length + 2 ≤ cs.length := by
  have hlen : ∀ cs : List Char, (replacePass cs).length ≤ cs.length :=
    fun cs => replacePassFuel_length_le _ _
  intro cs
  induction cs with
  | nil => exact Or.inl rfl
  | cons c cs ih =>
    rw [replacePass_eq]
    cases hm : matchParenLit (c :: cs) with
    | some p =>
      obtain ⟨d, rest⟩ := p
      dsimp only
      right
      have h1 := matchParenLit_length hm
      have h2 := hlen rest
      simp only [List.length_cons] at *
      omega
    | none =>
      dsimp only
      rcases ih with he | hs
      · left
        rw [he]
      · right
        simp only [List.length_cons]
        omega

/-- A fixed list of the pass has no match anywhere. -/
lemma no_match_of_replacePass_fix : ∀ (cs : List Char),
    replacePass cs = cs → ∀ k, matchParenLit (cs.drop k) = none := by
  intro cs
  induction cs with
  | nil =>
    intro _ k
    rw [List.drop_nil]
    rfl
  | cons c cs ih =>
    intro hfix k
    rw [replacePass_eq] at hfix
    cases hm : matchParenLit (c :: cs) with
    | some p =>
      obtain ⟨d, rest⟩ := p
      rw [hm] at hfix
      dsimp only at hfix
      have h1 := matchParenLit_length hm
      have h2 : (replacePass rest).length ≤ rest.length :=
        replacePassFuel_length_le rest.length rest
      have h3 := congrArg List.length hfix
      simp only [List.length_cons] at *
      omega
    | none =>
      rw [hm] at hfix
      dsimp only at hfix
      injection hfix with heq hfix'
      cases k with
      | zero => exact hm
      | succ k => exact ih hfix' k

/-- The normalization loop reaches a fixed point of the pass within its
fuel budget. -/
lemma normalizeLoop_fix : ∀ (f : Nat) (cs : List Char), cs.length < f →
    replacePass (normalizeLoop f cs) = normalizeLoop f cs := by
  intro f
  induction f with
  | zero => intro cs h; omega
  | succ f ih =>
    intro cs h
    simp only [normalizeLoop]
    by_cases ht : replacePass cs = cs
    · rw [if_pos ht]
      exact ht
    · rw [if_neg ht]
      rcases replacePass_fix_or_shrink cs with he | hs
      · exact absurd he ht
      · exact ih _ (by omega)

/-- **C7.**  Parenthesis normalization: every recorded state is the
normalization of the raw reduction result, the normalization is a true
fixed point (no `( v )` pattern with `v ∈ {0,1}` remains anywhere), every
accepted reduction records such a normalized state, and reducing `¬1`
inside `(¬ 1)` records the bare literal `0`, never `(0)`. -/
theorem paren_normalization :
    (∀ (history : List String) (newStr : String),
      addToHistory history newStr = history ++ [normalizeStr newStr] ∧
      (∀ k, matchParenLit ((normalizeStr newStr).toList.drop k) = none)) ∧
    (∀ (history tokens : List String) (idx p : Nat),
      (idx, p) ∈ candidatesOf tokens →
      PRECEDENCE (tokens.getD idx "") = maxPrecOf tokens →
      ∃ s, handleInteraction history idx tokens = (history ++ [s], "") ∧
        ∀ k, matchParenLit (s.toList.drop k) = none) ∧
    (∀ history : List String,
      handleInteraction history 1 ["(", "¬", "1", ")"] = (history ++ ["0"], "")) := by
  have hfix : ∀ s : String, ∀ k,
      matchParenLit ((normalizeStr s).toList.drop k) = none := by
    intro s k
    have h1 : (normalizeStr s).toList = normalizeLoop (s.length + 1) s.toList := rfl
    rw [h1]
    refine no_match_of_replacePass_fix _ ?_ k
    exact normalizeLoop_fix _ _ (by
      have : s.toList.length = s.length := by
        rfl
      omega)
  refine ⟨fun history newStr => ⟨rfl, hfix newStr⟩, ?_, fun history => rfl⟩
  · intro history tokens idx p hm hmax
    have hcne : candidatesOf tokens ≠ [] := by
      intro he
      rw [he] at hm
      cases hm
    unfold handleInteraction
    rw [if_neg hcne, if_neg (by rw [hmax]; exact lt_irrefl _)]
    by_cases ht : tokens.getD idx "" = "¬"
    · rw [if_pos ht]
      exact ⟨_, rfl, hfix _⟩
    · rw [if_neg ht]
      exact ⟨_, rfl, hfix _⟩

/-- Witness for `paren_normalization`: the accepted `¬` reduction of
`( ¬ 1 )` records a pattern-free state. -/
theorem paren_normalization_witness :
    (1, 5) ∈ candidatesOf ["(", "¬", "1", ")"] ∧
      PRECEDENCE (["(", "¬", "1", ")"].getD 1 "") = maxPrecOf ["(", "¬", "1", ")"] ∧
      (∃ s, handleInteraction [] 1 ["(", "¬", "1", ")"] = ([] ++ [s], "") ∧
        ∀ k, matchParenLit (s.toList.drop k) = none) :=
  ⟨by decide, by decide,
    paren_normalization.2.1 [] ["(", "¬", "1", ")"] 1 5 (by decide) (by decide)⟩

/-! ## Balance bookkeeping lemmas -/

lemma deltaL_append : ∀ (xs ys : List String),
    deltaL (xs ++ ys) = deltaL xs + deltaL ys := by
  intro xs ys
  induction xs with
  | nil => simp [deltaL]
  | cons t xs ih =>
    simp only [List.cons_append, deltaL, List.append_eq]
    rw [ih]
    ring

lemma balR_eq_neg_deltaL : ∀ (xs : List String), balR xs = -deltaL xs := by
  intro xs
  induction xs with
  | nil => rfl
  | cons t xs ih => simp only [balR, deltaL, ih]; ring

lemma step_balance_eq (t : String) (b : Int) :
    (if t = ")" then (if t = "(" then b + 1 else b) - 1
      else (if t = "(" then b + 1 else b)) = b + pdelta t := by
  unfold pdelta
  by_cases h1 : t = "("
  · subst h1
    rw [if_neg (by decide), if_pos rfl, if_pos rfl]
  · by_cases h2 : t = ")"
    · subst h2
      rw [if_pos rfl, if_neg (by decide), if_neg (by decide), if_pos rfl]
      ring
    · rw [if_neg h2, if_neg h1, if_neg h1, if_neg h2]
      ring

lemma nonnegScan_append : ∀ (xs ys : List String) (b : Int),
    nonnegScan b (xs ++ ys) =
      (nonnegScan b xs && nonnegScan (b + deltaL xs) ys) := by
  intro xs
  induction xs with
  | nil => intro ys b; simp [nonnegScan, deltaL]
  | cons t xs ih =>
    intro ys b
    simp only [List.cons_append, nonnegScan, deltaL, List.append_eq]
    by_cases h : b + pdelta t < 0
    · rw [if_pos h, if_pos h]
      rfl
    · rw [if_neg h, if_neg h, ih]
      have harith : b + pdelta t + deltaL xs = b + (pdelta t + deltaL xs) := by ring
      rw [harith]

lemma nonnegScan_final : ∀ (xs : List String) (b : Int), 0 ≤ b →
    nonnegScan b xs = true → 0 ≤ b + deltaL xs := by
  intro xs
  induction xs with
  | nil =>
    intro b hb h
    simp only [deltaL]
    omega
  | cons t xs ih =>
    intro b hb h
    simp only [nonnegScan] at h
    by_cases hs : b + pdelta t < 0
    · rw [if_pos hs] at h
      cases h
    · rw [if_neg hs] at h
      have := ih _ (by omega) h
      simp only [deltaL]
      omega

lemma nonnegScan_take : ∀ (xs : List String) (b : Int), 0 ≤ b →
    nonnegScan b xs = true → ∀ k, 0 ≤ b + deltaL (xs.take k) := by
  intro xs
  induction xs with
  | nil =>
    intro b hb h k
    simp [deltaL]
    omega
  | cons t xs ih =>
    intro b hb h k
    simp only [nonnegScan] at h
    by_cases hs : b + pdelta t < 0
    · rw [if_pos hs] at h
      cases h
    · rw [if_neg hs] at h
      cases k with
      | zero => simpa [deltaL] using hb
      | succ k =>
        have := ih (b + pdelta t) (by omega) h k
        simp only [List.take_succ_cons, deltaL]
        omega

lemma isBalancedAux_eq_scan : ∀ (xs : List String) (b : Int),
    isBalancedAux b xs = (nonnegScan b xs && (b + deltaL xs == 0)) := by
  intro xs
  induction xs with
  | nil => intro b; simp [isBalancedAux, nonnegScan, deltaL]
  | cons t xs ih =>
    intro b
    simp only [isBalancedAux, nonnegScan, deltaL]
    rw [step_balance_eq]
    by_cases hb : b + pdelta t < 0
    · rw [if_pos hb, if_pos hb]
      simp
    · rw [if_neg hb, if_neg hb, ih]
      have harith : b + pdelta t + deltaL xs = b + (pdelta t + deltaL xs) := by ring
      rw [harith]

/-! ## Facts about plain tokens -/

lemma goodTok_not_special {v : String} (h : goodTok v) :
    v ≠ "(" ∧ v ≠ ")" ∧ v ≠ "¬" ∧ v ≠ "∧" ∧ v ≠ "∨" ∧ v ≠ "⇒" ∧ v ≠ "⇔" := by
  refine ⟨?_, ?_, ?_, ?_, ?_, ?_, ?_⟩
  · rintro rfl
    exact absurd (by decide) (h.2 '(' (by decide)).1
  · rintro rfl
    exact absurd (by decide) (h.2 ')' (by decide)).1
  · rintro rfl
    exact absurd (by decide) (h.2 '¬' (by decide)).1
  · rintro rfl
    exact absurd (by decide) (h.2 '∧' (by decide)).1
  · rintro rfl
    exact absurd (by decide) (h.2 '∨' (by decide)).1
  · rintro rfl
    exact absurd (by decide) (h.2 '⇒' (by decide)).1
  · rintro rfl
    exact absurd (by decide) (h.2 '⇔' (by decide)).1

lemma goodTok_prec {v : String} (h : goodTok v) : PRECEDENCE v = 100 := by
  have hne := goodTok_not_special h
  unfold PRECEDENCE
  rw [if_neg hne.2.2.1, if_neg hne.2.2.2.1, if_neg hne.2.2.2.2.1,
    if_neg hne.2.2.2.2.2.1, if_neg hne.2.2.2.2.2.2]

lemma goodTok_pdelta {v : String} (h : goodTok v) : pdelta v = 0 := by
  have hne := goodTok_not_special h
  unfold pdelta
  rw [if_neg hne.1, if_neg hne.2.1]

lemma binOp_facts {v : String} (hv : v ∈ binOps) :
    v ≠ "(" ∧ v ≠ ")" ∧ v ≠ "¬" ∧ PRECEDENCE v < 100 ∧ pdelta v = 0 := by
  simp only [binOps, List.mem_cons, List.not_mem_nil, or_false] at hv
  rcases hv with rfl | rfl | rfl | rfl <;>
    exact ⟨by decide, by decide, by decide, by decide, by decide⟩

/-! ## Balance of well-formed sequences -/

lemma WFToks_ne_nil {w : List String} (h : WFToks w) : w ≠ [] := by
  induction h with
  | atom v hv => simp
  | neg w hw ih => simp
  | paren w hw ih => simp
  | bin w₁ v w₂ hv h₁ h₂ ih₁ ih₂ =>
    intro he
    rcases List.append_eq_nil.1 he with ⟨-, h2⟩
    cases h2

lemma WFToks_deltaL {w : List String} (h : WFToks w) : deltaL w = 0 := by
  induction h with
  | atom v hv => simp [deltaL, goodTok_pdelta hv]
  | neg w hw ih =>
    simp only [deltaL, ih]
    decide
  | paren w hw ih =>
    simp only [List.cons_append, List.append_eq, deltaL, deltaL_append, ih]
    decide
  | bin w₁ v w₂ hv h₁ h₂ ih₁ ih₂ =>
    simp only [deltaL_append, deltaL, ih₁, ih₂, (binOp_facts hv).2.2.2.2]
    ring

lemma WFToks_balR {w : List String} (h : WFToks w) : balR w = 0 := by
  rw [balR_eq_neg_deltaL, WFToks_deltaL h]
  ring

lemma WFToks_nonnegScan {w : List String} (h : WFToks w) :
    ∀ b : Int, 0 ≤ b → nonnegScan b w = true := by
  induction h with
  | atom v hv =>
    intro b hb
    simp only [nonnegScan, goodTok_pdelta hv]
    rw [if_neg (by omega)]
  | neg w hw ih =>
    intro b hb
    simp only [nonnegScan]
    have hp : pdelta "¬" = 0 := by decide
    rw [hp]
    rw [if_neg (by omega)]
    have harith : b + 0 = b := by ring
    rw [harith]
    exact ih b hb
  | paren w hw ih =>
    intro b hb
    simp only [List.cons_append, List.append_eq, nonnegScan, nonnegScan_append]
    have hp : pdelta "(" = 1 := by decide
    rw [hp, if_neg (by omega)]
    rw [Bool.and_eq_true]
    refine ⟨ih _ (by omega), ?_⟩
    simp only [WFToks_deltaL hw, nonnegScan]
    have hp2 : pdelta ")" = -1 := by decide
    rw [hp2, if_neg (by omega)]
  | bin w₁ v w₂ hv h₁ h₂ ih₁ ih₂ =>
    intro b hb
    rw [nonnegScan_append, Bool.and_eq_true]
    refine ⟨ih₁ b hb, ?_⟩
    simp only [nonnegScan, WFToks_deltaL h₁, (binOp_facts hv).2.2.2.2]
    rw [if_neg (by omega)]
    have harith : b + 0 + 0 = b := by ring
    rw [harith]
    exact ih₂ b hb

lemma WFToks_isBalanced {w : List String} (h : WFToks w) :
    isBalanced w = true := by
  unfold isBalanced
  rw [isBalancedAux_eq_scan, Bool.and_eq_true]
  exact ⟨WFToks_nonnegScan h 0 le_rfl, by simp [WFToks_deltaL h]⟩

lemma WFToks_balR_drop {w : List String} (h : WFToks w) :
    ∀ k, 0 ≤ balR (w.drop k) := by
  intro k
  rw [balR_eq_neg_deltaL]
  have hsplit : deltaL w = deltaL (w.take k) + deltaL (w.drop k) := by
    rw [← deltaL_append, List.take_append_drop]
  have htake := nonnegScan_take w 0 le_rfl (WFToks_nonnegScan h 0 le_rfl) k
  have hzero := WFToks_deltaL h
  omega

/-- No candidate survives a strictly positive ambient right balance. -/
lemma candsB_nil_of_pos {w : List String}
    (hsuf : ∀ k, 0 ≤ balR (w.drop k)) : ∀ b : Int, 1 ≤ b → candsB w b = [] := by
  induction w with
  | nil => intro b hb; rfl
  | cons t rest ih =>
    intro b hb
    simp only [candsB]
    rw [if_neg (by
      rintro ⟨-, -, hbal, -, -⟩
      have := hsuf 1
      simp only [List.drop_succ_cons, List.drop_zero] at this
      omega)]
    rw [ih (fun k => by
      have := hsuf (k + 1)
      simpa using this) b hb]
    rfl

lemma candsB_nil_of_WF_pos {w : List String} (h : WFToks w) :
    ∀ b : Int, 1 ≤ b → candsB w b = [] :=
  candsB_nil_of_pos (WFToks_balR_drop h)

/-- Appending splits the candidate scan. -/
lemma candsB_append : ∀ (xs ys : List String) (b : Int),
    candsB (xs ++ ys) b =
      candsB xs (balR ys + b) ++ (candsB ys b).map (· + xs.length) := by
  intro xs
  induction xs with
  | nil =>
    intro ys b
    simp only [List.nil_append, candsB, List.length_nil]
    have : (candsB ys b).map (· + 0) = candsB ys b := by
      simp
    rw [this]
  | cons t xs ih =>
    intro ys b
    simp only [List.cons_append, List.append_eq, candsB, List.length_cons]
    have hbal : balR (xs ++ ys) = balR xs + balR ys := by
      rw [balR_eq_neg_deltaL, balR_eq_neg_deltaL, balR_eq_neg_deltaL, deltaL_append]
      ring
    have hcond : (t ≠ ")" ∧ t ≠ "(" ∧ balR (xs ++ ys) + b = 0 ∧ t ≠ "¬" ∧
        PRECEDENCE t < 100) ↔ (t ≠ ")" ∧ t ≠ "(" ∧ balR xs + (balR ys + b) = 0 ∧
        t ≠ "¬" ∧ PRECEDENCE t < 100) := by
      rw [hbal]
      constructor <;> (rintro ⟨a1, a2, a3, a4, a5⟩; exact ⟨a1, a2, by omega, a4, a5⟩)
    by_cases hc : t ≠ ")" ∧ t ≠ "(" ∧ balR (xs ++ ys) + b = 0 ∧ t ≠ "¬" ∧
        PRECEDENCE t < 100
    · rw [if_pos hc, if_pos (hcond.1 hc), ih]
      simp only [List.cons_append, List.map_append, List.map_map]
      all_goals simp [Function.comp]
    · rw [if_neg hc, if_neg (fun hx => hc (hcond.2 hx)), ih]
      simp only [List.map_append, List.map_map]
      all_goals simp [Function.comp]

/-! ## Splitting well-formed sequences -/

/-- Any split candidate of a well-formed sequence cuts it into two
well-formed halves joined by a binary connective. -/
lemma WF_split : ∀ {w : List String}, WFToks w → ∀ j ∈ candsB w 0,
    ∃ X v Y, w = X ++ v :: Y ∧ X.length = j ∧ v ∈ binOps ∧
      WFToks X ∧ WFToks Y := by
  intro w h
  induction h with
  | atom v hv =>
    intro j hj
    exfalso
    simp only [candsB, List.map_nil] at hj
    rw [if_neg (by
      rintro ⟨-, -, -, -, hp⟩
      rw [goodTok_prec hv] at hp
      omega)] at hj
    cases hj
  | neg w hw ih =>
    intro j hj
    simp only [candsB] at hj
    rw [if_neg (by rintro ⟨-, -, -, hne, -⟩; exact hne rfl)] at hj
    rcases List.mem_map.1 hj with ⟨j', hj', rfl⟩
    obtain ⟨X, v, Y, rfl, hlen, hv, hX, hY⟩ := ih j' hj'
    exact ⟨"¬" :: X, v, Y, by simp, by simp [hlen], hv, WFToks.neg X hX, hY⟩
  | paren w hw ih =>
    intro j hj
    exfalso
    simp only [candsB, List.append_eq] at hj
    rw [if_neg (by rintro ⟨-, hne, -⟩; exact hne rfl)] at hj
    rcases List.mem_map.1 hj with ⟨j', hj', rfl⟩
    rw [candsB_append] at hj'
    have hb : balR [")"] + (0 : Int) = 1 := by decide
    rw [hb, candsB_nil_of_WF_pos hw 1 le_rfl,
      show candsB [")"] 0 = [] from by decide] at hj'
    simp at hj'
  | bin w₁ v w₂ hv h₁ h₂ ih₁ ih₂ =>
    intro j hj
    rw [candsB_append] at hj
    have hbf := binOp_facts hv
    have hbv : balR (v :: w₂) + (0 : Int) = 0 := by
      simp only [balR]
      rw [WFToks_balR h₂]
      have := hbf.2.2.2.2
      rw [balR_eq_neg_deltaL] at *
      omega
    rw [hbv] at hj
    rcases List.mem_append.1 hj with hj1 | hj2
    · obtain ⟨X, u, Y, rfl, hlen, hu, hX, hY⟩ := ih₁ j hj1
      refine ⟨X, u, Y ++ v :: w₂, by simp, hlen, hu, hX,
        WFToks.bin Y v w₂ hv hY h₂⟩
    · rcases List.mem_map.1 hj2 with ⟨j', hj', rfl⟩
      simp only [candsB] at hj'
      rw [if_pos ⟨hbf.2.1, hbf.1, by
          rw [WFToks_balR h₂]; ring, hbf.2.2.1, hbf.2.2.2.1⟩] at hj'
      rcases List.mem_cons.1 hj' with rfl | hj''
      · exact ⟨w₁, v, w₂, rfl, by omega, hv, h₁, h₂⟩
      · rcases List.mem_map.1 hj'' with ⟨j3, hj3, rfl⟩
        obtain ⟨X', u, Y', rfl, hlen, hu, hX', hY'⟩ := ih₂ j3 hj3
        refine ⟨w₁ ++ v :: X', u, Y', by simp, ?_, hu,
          WFToks.bin w₁ v X' hv h₁ hX', hY'⟩
        simp only [List.length_append, List.length_cons]
        omega

/-- A well-formed singleton is a plain atom token. -/
lemma WF_singleton : ∀ {w : List String}, WFToks w → ∀ t, w = [t] → goodTok t := by
  intro w h
  cases h with
  | atom v hv =>
    intro t ht
    injection ht with h1 h2
    subst h1
    exact hv
  | neg w' hw =>
    intro t ht
    injection ht with h1 h2
    exact absurd h2 (WFToks_ne_nil hw)
  | paren w' hw =>
    intro t ht
    injection ht with h1 h2
    rcases List.append_eq_nil.1 h2 with ⟨-, h3⟩
    cases h3
  | bin w₁ v w₂ hv h₁ h₂ =>
    intro t ht
    have hlen := congrArg List.length ht
    simp only [List.length_append, List.length_cons, List.length_nil,
      List.length_singleton] at hlen
    have l1 := List.length_pos.2 (WFToks_ne_nil h₁)
    omega

/-- The general index lemmas for splitting an append at the joint. -/
lemma getD_append_cons {α : Type} (X : List α) (v d : α) (Y : List α) :
    (X ++ v :: Y).getD X.length d = v := by
  induction X with
  | nil => rfl
  | cons x xs ih => simpa using ih

lemma drop_append_cons {α : Type} (X : List α) (v : α) (Y : List α) :
    (X ++ v :: Y).drop (X.length + 1) = Y := by
  have hsh : X ++ v :: Y = (X ++ [v]) ++ Y := by simp
  rw [hsh, show X.length + 1 = (X ++ [v]).length from by simp, List.drop_left]

/-- A well-formed sequence with no split candidate, at least two tokens
and a leading `¬` is a negation of a well-formed sequence. -/
lemma WF_neg_inversion : ∀ {w : List String}, WFToks w → candsB w 0 = [] →
    2 ≤ w.length → w.headD "" = "¬" → WFToks (w.drop 1) := by
  intro w h
  cases h with
  | atom v hv =>
    intro _ hlen _
    simp at hlen
  | neg w' hw =>
    intro _ _ _
    simpa using hw
  | paren w' hw =>
    intro _ _ hhead
    simp at hhead
  | bin w₁ v w₂ hv h₁ h₂ =>
    intro hcands _ _
    exfalso
    have hbf := binOp_facts hv
    have hm : w₁.length ∈ candsB (w₁ ++ v :: w₂) 0 := by
      rw [mem_candsB_iff]
      refine ⟨by simp [List.length_append], ?_, ?_⟩
      · rw [drop_append_cons, WFToks_balR h₂]
        ring
      · rw [getD_append_cons]
        exact hv
    rw [hcands] at hm
    cases hm

/-! ## Stripping well-formed sequences -/

lemma stripGuard_iff (w : List String) : stripGuard w = true ↔
    (w.headD "" = "(" ∧ w.getLastD "" = ")" ∧
      isBalanced ((w.drop 1).dropLast) = true) := by
  simp [stripGuard]

lemma stripGuard_singleton (v : String) : stripGuard [v] = false := by
  cases h : stripGuard [v]
  · rfl
  · have := stripGuard_two_le h
    simp at this

lemma stripOuter_singleton (v : String) : stripOuter [v] = [v] := by
  rw [stripOuter_eq, stripGuard_singleton]
  simp

lemma stripOuter_of_head_ne {w : List String} (h : w.headD "" ≠ "(") :
    stripOuter w = w := by
  rw [stripOuter_eq, if_neg (by
    intro hg
    exact h ((stripGuard_iff w).1 hg).1)]

lemma stripOuter_paren {w : List String} (hbal : isBalanced w = true) :
    stripOuter ("(" :: w ++ [")"]) = stripOuter w := by
  have hinner : (("(" :: w ++ [")"]).drop 1).dropLast = w := by
    simp
  have hg : stripGuard ("(" :: w ++ [")"]) = true := by
    rw [stripGuard_iff]
    refine ⟨rfl, ?_, ?_⟩
    · show (("(" :: w) ++ [")"]).getLastD "" = ")"
      exact List.getLastD_concat _ _ _
    · rw [hinner]
      exact hbal
  rw [stripOuter_eq, if_pos hg, hinner]

/-- Stripping preserves well-formedness. -/
lemma stripOuter_WF : ∀ (n : Nat) (w : List String), w.length ≤ n →
    WFToks w → WFToks (stripOuter w) := by
  intro n
  induction n with
  | zero =>
    intro w hle hw
    have : w = [] := List.eq_nil_of_length_eq_zero (by omega)
    exact absurd this (WFToks_ne_nil hw)
  | succ n ih =>
    intro w hle hw
    by_cases hg : stripGuard w = true
    case neg =>
      rw [stripOuter_eq, if_neg hg]
      exact hw
    rw [stripOuter_eq, if_pos hg]
    rw [stripGuard_iff] at hg
    obtain ⟨hhead, hlast, hbal⟩ := hg
    cases hw with
    | atom v hv =>
      exact absurd (by simpa using hhead) (goodTok_not_special hv).1
    | neg w' hw' =>
      simp at hhead
    | paren w' hw' =>
      have hinner : (("(" :: w' ++ [")"]).drop 1).dropLast = w' := by
        simp
      rw [hinner]
      refine ih w' ?_ hw'
      simp only [List.cons_append, List.length_cons, List.length_append,
        List.length_singleton] at hle
      omega
    | bin w₁ v w₂ hv h₁ h₂ =>
      exfalso
      have hne₁ := WFToks_ne_nil h₁
      obtain ⟨x, w₁t, rfl⟩ : ∃ x w₁t, w₁ = x :: w₁t := by
        cases w₁ with
        | nil => exact absurd rfl hne₁
        | cons a b => exact ⟨a, b, rfl⟩
      have hx : x = "(" := by simpa using hhead
      subst hx
      have hd : deltaL ("(" :: w₁t) = 0 := WFToks_deltaL h₁
      have hdt : deltaL w₁t = -1 := by
        simp only [deltaL] at hd
        have hp : pdelta "(" = 1 := by decide
        omega
      have hinner : ((("(" :: w₁t) ++ v :: w₂).drop 1).dropLast =
          w₁t ++ (v :: w₂).dropLast := by
        simp [List.dropLast_append_cons]
      rw [hinner] at hbal
      unfold isBalanced at hbal
      rw [isBalancedAux_eq_scan, Bool.and_eq_true] at hbal
      obtain ⟨hnn, -⟩ := hbal
      rw [nonnegScan_append, Bool.and_eq_true] at hnn
      obtain ⟨hnn1, -⟩ := hnn
      have := nonnegScan_final w₁t 0 le_rfl hnn1
      omega

/-! ## Canonical token sequences of good trees -/

lemma tokensOf_ne_nil (t : ASTNode) : tokensOf t ≠ [] := by
  cases t <;> simp [tokensOf]

/-- The canonical token sequence of a good tree is well formed. -/
lemma tokensOf_WF : ∀ t : ASTNode, goodTree t → WFToks (tokensOf t) := by
  intro t
  induction t with
  | atom v =>
    intro h
    exact WFToks.atom v h
  | neg l ih =>
    intro h
    exact WFToks.paren _ (WFToks.neg _ (ih h))
  | bin v l r ihl ihr =>
    intro h
    obtain ⟨hv, hl, hr⟩ := h
    exact WFToks.paren _ (WFToks.bin _ v _ hv (ihl hl) (ihr hr))

lemma candsB_rparen (b : Int) : candsB [")"] b = [] := by
  simp only [candsB, List.map_nil]
  rw [if_neg (by rintro ⟨h1, -⟩; exact h1 rfl)]

lemma candsB_WF_rparen {w : List String} (h : WFToks w) (b : Int) (hb : 0 ≤ b) :
    candsB (w ++ [")"]) b = [] := by
  rw [candsB_append, candsB_rparen,
    show balR [")"] = (1 : Int) from by decide,
    candsB_nil_of_WF_pos h (1 + b) (by omega)]
  simp

/-- The rendering of a good tree offers no split candidate: it is either
a single plain token or fully parenthesized. -/
lemma tokensOf_cands_nil : ∀ (t : ASTNode), goodTree t →
    candsB (tokensOf t) 0 = [] := by
  intro t ht
  cases t with
  | atom v =>
    simp only [tokensOf, candsB, List.map_nil]
    rw [if_neg (by
      rintro ⟨-, -, -, -, hp⟩
      rw [goodTok_prec ht] at hp
      omega)]
  | neg l =>
    show candsB ("(" :: "¬" :: (tokensOf l ++ [")"])) 0 = []
    simp only [candsB, List.append_eq]
    rw [if_neg (by rintro ⟨-, h2, -⟩; exact h2 rfl)]
    rw [if_neg (by rintro ⟨-, -, -, h4, -⟩; exact h4 rfl)]
    rw [candsB_WF_rparen (tokensOf_WF l ht) 0 le_rfl]
    simp
  | bin v l r =>
    obtain ⟨hv, hl, hr⟩ := ht
    show candsB ("(" :: ((tokensOf l ++ v :: tokensOf r) ++ [")"])) 0 = []
    simp only [candsB, List.append_eq]
    rw [if_neg (by rintro ⟨-, h2, -⟩; exact h2 rfl)]
    rw [candsB_WF_rparen
      (WFToks.bin _ v _ hv (tokensOf_WF l hl) (tokensOf_WF r hr)) 0 le_rfl]
    simp

/-- Joining two renderings by a binary connective yields exactly one
split candidate: the connective itself. -/
lemma candsB_bin_tokens {l r : ASTNode} {v : String} (hl : goodTree l)
    (hr : goodTree r) (hv : v ∈ binOps) :
    candsB (tokensOf l ++ v :: tokensOf r) 0 = [(tokensOf l).length] := by
  have hbf := binOp_facts hv
  rw [candsB_append,
    show balR (v :: tokensOf r) + (0 : Int) = 0 from by
      rw [balR_eq_neg_deltaL,
        show deltaL (v :: tokensOf r) = pdelta v + deltaL (tokensOf r) from rfl,
        WFToks_deltaL (tokensOf_WF r hr), hbf.2.2.2.2]
      ring,
    tokensOf_cands_nil l hl]
  simp only [List.nil_append, candsB]
  rw [if_pos ⟨hbf.2.1, hbf.1,
    by rw [WFToks_balR (tokensOf_WF r hr)]; ring, hbf.2.2.1, hbf.2.2.2.1⟩]
  rw [tokensOf_cands_nil r hr]
  simp

/-- A well-formed prefix followed by more tokens never triggers the
outer-parenthesis strip: either its head is not `(`, or the prefix of
the inner slice dips to a negative balance. -/
lemma stripGuard_append_cons {X : List String} (hX : WFToks X) (v : String)
    (Y : List String) : stripGuard (X ++ v :: Y) = false := by
  cases hg : stripGuard (X ++ v :: Y)
  · rfl
  exfalso
  rw [stripGuard_iff] at hg
  obtain ⟨hhead, -, hbal⟩ := hg
  obtain ⟨x, Xt, rfl⟩ : ∃ x Xt, X = x :: Xt := by
    cases X with
    | nil => exact absurd rfl (WFToks_ne_nil hX)
    | cons a b => exact ⟨a, b, rfl⟩
  have hx : x = "(" := by simpa using hhead
  subst hx
  have hd := WFToks_deltaL hX
  have hdt : deltaL Xt = -1 := by
    simp only [deltaL] at hd
    have hp : pdelta "(" = 1 := by decide
    omega
  have hinner : ((("(" :: Xt) ++ v :: Y).drop 1).dropLast =
      Xt ++ (v :: Y).dropLast := by
    simp [List.dropLast_append_cons]
  rw [hinner] at hbal
  unfold isBalanced at hbal
  rw [isBalancedAux_eq_scan, Bool.and_eq_true] at hbal
  obtain ⟨hnn, -⟩ := hbal
  rw [nonnegScan_append, Bool.and_eq_true] at hnn
  obtain ⟨hnn1, -⟩ := hnn
  have := nonnegScan_final Xt 0 le_rfl hnn1
  omega

/-- Parsing the canonical token sequence of a good tree recovers the
tree exactly. -/
lemma parse_tokensOf : ∀ t : ASTNode, goodTree t → parseToAST (tokensOf t) = t := by
  intro t
  induction t with
  | atom v =>
    intro h
    show parseToAST [v] = ASTNode.atom v
    rw [parseToAST_eq, stripOuter_singleton]
    rfl
  | neg l ih =>
    intro h
    have hWl := tokensOf_WF l h
    have hX : WFToks ("¬" :: tokensOf l) := WFToks.neg _ hWl
    have hstrip : stripOuter (tokensOf (ASTNode.neg l)) = "¬" :: tokensOf l := by
      have h1 : stripOuter ("(" :: ("¬" :: tokensOf l) ++ [")"]) =
          stripOuter ("¬" :: tokensOf l) :=
        stripOuter_paren (WFToks_isBalanced hX)
      have h2 : stripOuter ("¬" :: tokensOf l) = "¬" :: tokensOf l := by
        refine stripOuter_of_head_ne ?_
        intro hc
        simp only [List.headD_cons] at hc
        exact absurd hc (by decide)
      exact h1.trans h2
    have hlpos : 0 < (tokensOf l).length := List.length_pos.2 (tokensOf_ne_nil l)
    rw [parseToAST_eq, hstrip]
    rw [if_neg (by simp)]
    rw [if_neg (by
      intro hc
      simp only [List.length_cons] at hc
      omega)]
    have hfs : findSplit ("¬" :: tokensOf l) = none := by
      rw [findSplit_eq_none_iff]
      simp only [candsB]
      rw [if_neg (by rintro ⟨-, -, -, h4, -⟩; exact h4 rfl)]
      rw [tokensOf_cands_nil l h]
      rfl
    rw [hfs]
    dsimp only
    rw [if_pos (show ("¬" :: tokensOf l).headD "" = "¬" from rfl),
      show ("¬" :: tokensOf l).drop 1 = tokensOf l from rfl, ih h]
  | bin v l r ihl ihr =>
    intro h
    obtain ⟨hv, hl, hr⟩ := h
    have hWl := tokensOf_WF l hl
    have hWr := tokensOf_WF r hr
    have hW : WFToks (tokensOf l ++ v :: tokensOf r) :=
      WFToks.bin _ v _ hv hWl hWr
    have hstrip : stripOuter (tokensOf (ASTNode.bin v l r)) =
        tokensOf l ++ v :: tokensOf r := by
      have h1 : stripOuter ("(" :: (tokensOf l ++ v :: tokensOf r) ++ [")"]) =
          stripOuter (tokensOf l ++ v :: tokensOf r) :=
        stripOuter_paren (WFToks_isBalanced hW)
      have h2 : stripOuter (tokensOf l ++ v :: tokensOf r) =
          tokensOf l ++ v :: tokensOf r := by
        rw [stripOuter_eq, stripGuard_append_cons hWl v (tokensOf r)]
        simp
      exact h1.trans h2
    rw [parseToAST_eq, hstrip]
    rw [if_neg (by simp)]
    rw [if_neg (by
      intro hc
      simp only [List.length_append, List.length_cons] at hc
      have hlpos := List.length_pos.2 (tokensOf_ne_nil l)
      omega)]
    have hfs : findSplit (tokensOf l ++ v :: tokensOf r) =
        some (tokensOf l).length := by
      have hc := candsB_bin_tokens hl hr hv
      obtain ⟨i, hi⟩ := findSplit_isSome (by rw [hc]; simp)
      obtain ⟨him, -, -⟩ := findSplit_eq_some hi
      rw [hc, List.mem_singleton] at him
      rw [him] at hi
      exact hi
    rw [hfs]
    dsimp only
    rw [getD_append_cons, List.take_left, drop_append_cons, ihl hl, ihr hr]

/-- Parsing any well-formed token sequence yields a good tree. -/
lemma parse_good : ∀ (n : Nat) (ts : List String), ts.length ≤ n →
    WFToks ts → goodTree (parseToAST ts) := by
  intro n
  induction n with
  | zero =>
    intro ts hle hw
    exact absurd (List.eq_nil_of_length_eq_zero (by omega)) (WFToks_ne_nil hw)
  | succ n ih =>
    intro ts hle hw
    have hw' : WFToks (stripOuter ts) := stripOuter_WF (n + 1) ts hle hw
    have hlen' : (stripOuter ts).length ≤ ts.length := stripOuter_length_le ts
    rw [parseToAST_eq]
    by_cases hz : (stripOuter ts).length = 0
    · rw [if_pos hz]
      exact (by decide : goodTok "ERR")
    rw [if_neg hz]
    by_cases ho : (stripOuter ts).length = 1
    · rw [if_pos ho]
      obtain ⟨t, ht⟩ := List.length_eq_one.1 ho
      rw [ht]
      exact WF_singleton (ht ▸ hw') t rfl
    rw [if_neg ho]
    cases hs : findSplit (stripOuter ts) with
    | some i =>
      dsimp only
      obtain ⟨him, -, -⟩ := findSplit_eq_some hs
      obtain ⟨X, v, Y, hXY, hXlen, hv, hX, hY⟩ := WF_split hw' i him
      have hlenXY := congrArg List.length hXY
      simp only [List.length_append, List.length_cons] at hlenXY
      rw [hXY, ← hXlen, getD_append_cons, List.take_left, drop_append_cons]
      show v ∈ binOps ∧ goodTree (parseToAST X) ∧ goodTree (parseToAST Y)
      exact ⟨hv, ih X (by omega) hX, ih Y (by omega) hY⟩
    | none =>
      dsimp only
      have hcands := (findSplit_eq_none_iff _).1 hs
      by_cases hne : (stripOuter ts).headD "" = "¬"
      · rw [if_pos hne]
        have hdropWF := WF_neg_inversion hw' hcands (by omega) hne
        show goodTree (parseToAST ((stripOuter ts).drop 1))
        refine ih _ ?_ hdropWF
        simp only [List.length_drop]
        omega
      · rw [if_neg hne]
        exact (by decide : goodTok "ERR")

/-! ## Tokenizing a rendered tree -/

lemma toList_append (a b : String) : (a ++ b).toList = a.toList ++ b.toList :=
  String.data_append a b

lemma filtWs_append (a b : List Char) :
    filtWs (a ++ b) = filtWs a ++ filtWs b := by
  simp [filtWs]

lemma mk_toList (v : String) : String.mk v.toList = v := rfl

lemma goodTok_chars {v : String} (h : goodTok v) :
    filtWs v.toList = v.toList ∧ v.toList ≠ [] ∧
      ∀ c ∈ v.toList, isSpecial c = false := by
  obtain ⟨hne, hall⟩ := h
  refine ⟨?_, ?_, ?_⟩
  · apply List.filter_eq_self.2
    intro c hc
    have := (hall c hc).2
    simpa using this
  · intro hnil
    apply hne
    cases v with
    | mk data =>
      have hd : data = [] := hnil
      subst hd
      rfl
  · intro c hc
    have := (hall c hc).1
    simpa using this

lemma binOp_toList {v : String} (hv : v ∈ binOps) :
    ∃ c, v.toList = [c] ∧ isSpecial c = true ∧ String.mk [c] = v ∧
      filtWs [c] = [c] := by
  simp only [binOps, List.mem_cons, List.not_mem_nil, or_false] at hv
  rcases hv with rfl | rfl | rfl | rfl
  · exact ⟨'∧', rfl, by decide, rfl, by decide⟩
  · exact ⟨'∨', rfl, by decide, rfl, by decide⟩
  · exact ⟨'⇒', rfl, by decide, rfl, by decide⟩
  · exact ⟨'⇔', rfl, by decide, rfl, by decide⟩

/-- The tokenizer splits cleanly at an append whose right part is empty
or starts with a special character. -/
lemma tokenizeChars_append_special : ∀ (xs ys : List Char),
    (ys = [] ∨ ∃ c cs, ys = c :: cs ∧ isSpecial c = true) →
    ∀ acc, tokenizeChars (xs ++ ys) acc =
      tokenizeChars xs acc ++ tokenizeChars ys [] := by
  intro xs
  induction xs with
  | nil =>
    rintro ys (rfl | ⟨c, cs, rfl, hc⟩) acc
    · show tokenizeChars [] acc = tokenizeChars [] acc ++ tokenizeChars [] []
      simp [tokenizeChars]
    · show tokenizeChars (c :: cs) acc =
        tokenizeChars [] acc ++ tokenizeChars (c :: cs) []
      by_cases ha : acc = []
      · subst ha
        simp [tokenizeChars, hc]
      · simp [tokenizeChars, hc, ha]
  | cons x xs ih =>
    intro ys hy acc
    show tokenizeChars (x :: (xs ++ ys)) acc =
      tokenizeChars (x :: xs) acc ++ tokenizeChars ys []
    by_cases hx : isSpecial x = true
    · simp only [tokenizeChars]
      rw [if_pos hx, if_pos hx, ih ys hy []]
      simp [List.append_assoc]
    · simp only [tokenizeChars]
      rw [if_neg hx, if_neg hx]
      exact ih ys hy (x :: acc)

/-- A run with no special character collapses to at most one token. -/
lemma tokenizeChars_plain : ∀ (cs acc : List Char),
    (∀ c ∈ cs, isSpecial c = false) →
    tokenizeChars cs acc =
      if acc = [] ∧ cs = [] then [] else [String.mk (acc.reverse ++ cs)] := by
  intro cs
  induction cs with
  | nil =>
    intro acc h
    simp only [tokenizeChars]
    by_cases ha : acc = []
    · subst ha
      simp
    · rw [if_neg ha, if_neg (by simp [ha])]
      simp
  | cons c cs ih =>
    intro acc h
    have hc : isSpecial c = false := h c (List.mem_cons_self c cs)
    simp only [tokenizeChars]
    rw [if_neg (by simp [hc])]
    rw [ih (c :: acc) (fun d hd => h d (List.mem_cons_of_mem c hd))]
    rw [if_neg (by simp), if_neg (by simp)]
    simp [List.reverse_cons, List.append_assoc]

lemma tokenizeChars_special_cons (c : Char) (hc : isSpecial c = true)
    (cs : List Char) :
    tokenizeChars (c :: cs) [] = String.mk [c] :: tokenizeChars cs [] := by
  simp only [tokenizeChars]
  rw [if_pos hc]
  simp

/-- Tokenizing the rendering of a good tree recovers its canonical token
sequence. -/
lemma tokenize_render : ∀ t : ASTNode, goodTree t →
    tokenizeChars (filtWs (ASTNode.toFullString t).toList) [] = tokensOf t := by
  intro t
  induction t with
  | atom v =>
    intro h
    obtain ⟨hfilt, hne, hplain⟩ := goodTok_chars h
    show tokenizeChars (filtWs v.toList) [] = [v]
    rw [hfilt, tokenizeChars_plain v.toList [] hplain,
      if_neg (fun hcon => hne hcon.2)]
    simp [mk_toList]
  | neg l ih =>
    intro h
    have hl := ih h
    have hchars : filtWs (ASTNode.toFullString (ASTNode.neg l)).toList =
        '(' :: '¬' :: (filtWs (ASTNode.toFullString l).toList ++ [')']) := by
      show filtWs ((("(¬ " ++ ASTNode.toFullString l) ++ ")").toList) = _
      simp only [toList_append, filtWs_append]
      rw [show filtWs "(¬ ".toList = ['(', '¬'] from by decide,
        show filtWs ")".toList = [')'] from by decide]
      simp
    rw [hchars,
      tokenizeChars_special_cons '(' (by decide),
      tokenizeChars_special_cons '¬' (by decide),
      tokenizeChars_append_special _ [')']
        (Or.inr ⟨')', [], rfl, by decide⟩) [],
      hl,
      show tokenizeChars [')'] [] = [")"] from by decide,
      show String.mk ['('] = "(" from by decide,
      show String.mk ['¬'] = "¬" from by decide]
    rfl
  | bin v l r ihl ihr =>
    intro h
    obtain ⟨hv, hgl, hgr⟩ := h
    obtain ⟨cv, hcv1, hcv2, hcv3, hcv4⟩ := binOp_toList hv
    have hl := ihl hgl
    have hr := ihr hgr
    have hchars : filtWs (ASTNode.toFullString (ASTNode.bin v l r)).toList =
        '(' :: (filtWs (ASTNode.toFullString l).toList ++
          cv :: (filtWs (ASTNode.toFullString r).toList ++ [')'])) := by
      show filtWs (((((("(" ++ ASTNode.toFullString l) ++ " ") ++ v) ++ " ")
        ++ ASTNode.toFullString r ++ ")").toList) = _
      simp only [toList_append, filtWs_append]
      rw [show filtWs "(".toList = ['('] from by decide,
        show filtWs " ".toList = [] from by decide,
        show filtWs ")".toList = [')'] from by decide,
        hcv1, hcv4]
      simp
    rw [hchars,
      tokenizeChars_special_cons '(' (by decide),
      tokenizeChars_append_special _
        (cv :: (filtWs (ASTNode.toFullString r).toList ++ [')']))
        (Or.inr ⟨cv, _, rfl, hcv2⟩) [],
      hl,
      tokenizeChars_special_cons cv hcv2,
      tokenizeChars_append_special _ [')']
        (Or.inr ⟨')', [], rfl, by decide⟩) [],
      hr,
      show tokenizeChars [')'] [] = [")"] from by decide,
      hcv3,
      show String.mk ['('] = "(" from by decide]
    simp [tokensOf, List.append_assoc]

/-- C1. Round-trip canonicalization: for every well-formed token
sequence `ts`, with `t = parseToAST ts` and `s = t.toFullString`,
tokenizing `s` and parsing again yields the very same tree `t`, so in
particular its rendering is the fixed point `s`: parse-then-render is
idempotent on canonical strings. -/
theorem parse_render_roundtrip (ts : List String) (h : WFToks ts) :
    parseToAST (tokenize (ASTNode.toFullString (parseToAST ts))) = parseToAST ts ∧
      ASTNode.toFullString
          (parseToAST (tokenize (ASTNode.toFullString (parseToAST ts)))) =
        ASTNode.toFullString (parseToAST ts) := by
  have hg : goodTree (parseToAST ts) := parse_good ts.length ts le_rfl h
  have h1 : tokenize (ASTNode.toFullString (parseToAST ts)) =
      tokensOf (parseToAST ts) := tokenize_render (parseToAST ts) hg
  have h2 := parse_tokensOf (parseToAST ts) hg
  rw [h1, h2]
  exact ⟨rfl, rfl⟩

/-- Witness for C1 at the well-formed sequence `P ∨ Q ∧ R`. -/
theorem parse_render_roundtrip_witness :
    WFToks ["P", "∨", "Q", "∧", "R"] ∧
      ASTNode.toFullString
          (parseToAST (tokenize
            (ASTNode.toFullString (parseToAST ["P", "∨", "Q", "∧", "R"])))) =
        ASTNode.toFullString (parseToAST ["P", "∨", "Q", "∧", "R"]) := by
  have h3 : WFToks ["R"] := WFToks.atom "R" (by decide)
  have h2 : WFToks ["Q", "∧", "R"] :=
    WFToks.bin ["Q"] "∧" ["R"] (by decide) (WFToks.atom "Q" (by decide)) h3
  have hwf : WFToks ["P", "∨", "Q", "∧", "R"] :=
    WFToks.bin ["P"] "∨" ["Q", "∧", "R"] (by decide)
      (WFToks.atom "P" (by decide)) h2
  exact ⟨hwf, (parse_render_roundtrip ["P", "∨", "Q", "∧", "R"] hwf).2⟩

lemma pay_le_one (b : Bool) : pay b ≤ 1 := by cases b <;> simp [pay]

lemma tc_true_le_false : ∀ cs : List Char, tc true cs ≤ tc false cs := by
  intro cs
  cases cs with
  | nil => exact le_rfl
  | cons c cs =>
    simp only [tc]
    by_cases hp : isParen c = true
    · rw [if_pos hp, if_pos hp]
    · rw [if_neg hp, if_neg hp]
      by_cases hw : isWs c = true
      · rw [if_pos hw, if_pos hw]
      · rw [if_neg hw, if_neg hw]
        simp [pay]

lemma tc_false_le_true_succ : ∀ cs : List Char, tc false cs ≤ tc true cs + 1 := by
  intro cs
  cases cs with
  | nil => simp [tc]
  | cons c cs =>
    simp only [tc]
    by_cases hp : isParen c = true
    · rw [if_pos hp, if_pos hp]
      omega
    · rw [if_neg hp, if_neg hp]
      by_cases hw : isWs c = true
      · rw [if_pos hw, if_pos hw]
        omega
      · rw [if_neg hw, if_neg hw]
        simp only [pay]
        omega

/-- The token count is monotone under character deletion. -/
lemma tc_sublist {s t : List Char} (h : List.Sublist s t) :
    ∀ b, tc b s ≤ tc b t := by
  induction h with
  | slnil => intro b; exact le_rfl
  | @cons l₁ l₂ c h ih =>
    intro b
    show tc b l₁ ≤ tc b (c :: l₂)
    simp only [tc]
    have h1 := ih b
    have h2 := tc_true_le_false l₂
    have h3 := tc_false_le_true_succ l₂
    have h4 := pay_le_one b
    by_cases hp : isParen c = true
    · rw [if_pos hp]
      cases b <;> simp only [pay] at * <;> omega
    · rw [if_neg hp]
      by_cases hw : isWs c = true
      · rw [if_pos hw]
        cases b <;> simp only [pay] at * <;> omega
      · rw [if_neg hw]
        cases b <;> simp only [pay] at * <;> omega
  | @cons₂ l₁ l₂ c h ih =>
    intro b
    simp only [tc]
    have h1 := ih false
    have h2 := ih true
    by_cases hp : isParen c = true
    · rw [if_pos hp, if_pos hp]
      omega
    · rw [if_neg hp, if_neg hp]
      by_cases hw : isWs c = true
      · rw [if_pos hw, if_pos hw]
        exact h1
      · rw [if_neg hw, if_neg hw]
        omega

lemma rcW_true_le_false : ∀ cs : List Char, rcW true cs ≤ rcW false cs := by
  intro cs
  cases cs with
  | nil => exact le_rfl
  | cons c cs =>
    simp only [rcW]
    by_cases hw : isWs c = true
    · rw [if_pos hw, if_pos hw]
    · rw [if_neg hw, if_neg hw]
      simp [pay]

lemma rcW_false_le_true_succ : ∀ cs : List Char, rcW false cs ≤ rcW true cs + 1 := by
  intro cs
  cases cs with
  | nil => simp [rcW]
  | cons c cs =>
    simp only [rcW]
    by_cases hw : isWs c = true
    · rw [if_pos hw, if_pos hw]
      omega
    · rw [if_neg hw, if_neg hw]
      simp only [pay]
      omega

/-- The run count is monotone under character deletion. -/
lemma rcW_sublist {s t : List Char} (h : List.Sublist s t) :
    ∀ b, rcW b s ≤ rcW b t := by
  induction h with
  | slnil => intro b; exact le_rfl
  | @cons l₁ l₂ c h ih =>
    intro b
    show rcW b l₁ ≤ rcW b (c :: l₂)
    simp only [rcW]
    have h1 := ih b
    have h2 := rcW_true_le_false l₂
    have h3 := rcW_false_le_true_succ l₂
    by_cases hw : isWs c = true
    · rw [if_pos hw]
      cases b <;> simp only [pay] at * <;> omega
    · rw [if_neg hw]
      cases b <;> simp only [pay] at * <;> omega
  | @cons₂ l₁ l₂ c h ih =>
    intro b
    simp only [rcW]
    have h1 := ih false
    have h2 := ih true
    by_cases hw : isWs c = true
    · rw [if_pos hw, if_pos hw]
      exact h1
    · rw [if_neg hw, if_neg hw]
      omega

/-- The token count is additive across a space separator. -/
lemma tc_append_ws : ∀ (xs : List Char) (b : Bool) (ys : List Char),
    tc b (xs ++ ' ' :: ys) = tc b xs + tc false ys := by
  intro xs
  induction xs with
  | nil =>
    intro b ys
    show tc b (' ' :: ys) = tc b [] + tc false ys
    simp only [tc]
    rw [if_neg (by decide), if_pos (by decide)]
    omega
  | cons c xs ih =>
    intro b ys
    show tc b (c :: (xs ++ ' ' :: ys)) = tc b (c :: xs) + tc false ys
    simp only [tc]
    by_cases hp : isParen c = true
    · rw [if_pos hp, if_pos hp, ih]
      omega
    · rw [if_neg hp, if_neg hp]
      by_cases hw : isWs c = true
      · rw [if_pos hw, if_pos hw, ih]
      · rw [if_neg hw, if_neg hw, ih]
        omega

/-- A run of plain characters contributes nothing once inside it. -/
lemma tc_true_plain : ∀ cs : List Char,
    (∀ c ∈ cs, isParen c = false ∧ isWs c = false) → tc true cs = 0 := by
  intro cs
  induction cs with
  | nil => intro _; rfl
  | cons c cs ih =>
    intro h
    have hc := h c (List.mem_cons_self c cs)
    simp only [tc]
    rw [if_neg (by simp [hc.1]), if_neg (by simp [hc.2]),
      ih (fun d hd => h d (List.mem_cons_of_mem c hd))]
    simp [pay]

/-- Every well-shaped token counts exactly one. -/
lemma tc_false_niceTok {t : String} (h : niceTok t) : tc false t.toList = 1 := by
  obtain ⟨hne, hnw, hshape⟩ := h
  rcases hshape with rfl | rfl | hplain
  · decide
  · decide
  · cases hl : t.toList with
    | nil => exact absurd hl hne
    | cons c cs =>
      simp only [tc]
      have hc1 : isParen c = false := by
        have := hplain c (by rw [hl]; exact List.mem_cons_self c cs)
        simpa using this
      have hc2 : isWs c = false := by
        have := hnw c (by rw [hl]; exact List.mem_cons_self c cs)
        simpa using this
      rw [if_neg (by simp [hc1]), if_neg (by simp [hc2]),
        tc_true_plain cs (fun d hd => by
          have h1 := hplain d (by rw [hl]; exact List.mem_cons_of_mem c hd)
          have h2 := hnw d (by rw [hl]; exact List.mem_cons_of_mem c hd)
          exact ⟨by simpa using h1, by simpa using h2⟩)]
      simp [pay]

/-- Joining well-shaped tokens with spaces yields one counted token per
list entry. -/
lemma tc_joinChars : ∀ (zs : List String), niceToks zs →
    tc false (joinChars (zs.map String.toList)) = zs.length := by
  intro zs
  induction zs with
  | nil => intro _; rfl
  | cons x zs ih =>
    intro h
    have hx : niceTok x := h x (List.mem_cons_self x zs)
    cases zs with
    | nil =>
      show tc false x.toList = 1
      exact tc_false_niceTok hx
    | cons y zs' =>
      show tc false (x.toList ++ ' ' :: joinChars ((y :: zs').map String.toList)) = _
      rw [tc_append_ws, tc_false_niceTok hx,
        ih (fun t ht => h t (List.mem_cons_of_mem x ht))]
      simp only [List.length_cons]
      omega

lemma tc_joinTokens {zs : List String} (h : niceToks zs) :
    tc false (joinTokens zs).toList = zs.length :=
  tc_joinChars zs h

/-! ## The normalization output is a subsequence of its input -/

lemma trimChars_sublist (cs : List Char) : List.Sublist (trimChars cs) cs := by
  unfold trimChars
  have h1 : List.Sublist (((cs.dropWhile isWs).reverse.dropWhile isWs))
      (cs.dropWhile isWs).reverse := List.dropWhile_sublist _
  have h2 := h1.reverse
  rw [List.reverse_reverse] at h2
  exact h2.trans (List.dropWhile_sublist _)

lemma matchParenLit_sublist : ∀ {l rest : List Char} {d : Char},
    matchParenLit l = some (d, rest) →
    ∀ {ys : List Char}, List.Sublist ys rest → List.Sublist (d :: ys) l := by
  intro l rest d h
  intro ys hys
  match l with
  | [] => cases h
  | c :: cs =>
    simp only [matchParenLit] at h
    split_ifs at h with hc
    cases hd : cs.dropWhile isWs with
    | nil => rw [hd] at h; cases h
    | cons d' cs2 =>
      rw [hd] at h
      dsimp only at h
      split_ifs at h with hdd
      cases he : cs2.dropWhile isWs with
      | nil => rw [he] at h; cases h
      | cons e cs4 =>
        rw [he] at h
        dsimp only at h
        split_ifs at h with hee
        injection h with h'
        rw [Prod.mk.injEq] at h'
        rw [← h'.1]
        have s0 : List.Sublist ys cs4 := by
          rw [h'.2]
          exact hys
        have s1 : List.Sublist ys cs2 := by
          have hstep := s0.cons e
          rw [← he] at hstep
          exact hstep.trans (List.dropWhile_sublist _)
        have s2 : List.Sublist (d' :: ys) cs := by
          have hstep := s1.cons₂ d'
          rw [← hd] at hstep
          exact hstep.trans (List.dropWhile_sublist _)
        exact s2.cons c

lemma replacePass_sublist_aux : ∀ (n : Nat) (cs : List Char), cs.length ≤ n →
    List.Sublist (replacePass cs) cs := by
  intro n
  induction n with
  | zero =>
    intro cs h
    have hnil : cs = [] := List.eq_nil_of_length_eq_zero (by omega)
    subst hnil
    exact List.Sublist.refl _
  | succ n ih =>
    intro cs h
    cases cs with
    | nil => exact List.Sublist.refl _
    | cons c cs' =>
      rw [replacePass_eq]
      cases hm : matchParenLit (c :: cs') with
      | some p =>
        obtain ⟨d, rest⟩ := p
        dsimp only
        have hlen := matchParenLit_length hm
        simp only [List.length_cons] at h hlen
        exact matchParenLit_sublist hm (ih rest (by omega))
      | none =>
        dsimp only
        simp only [List.length_cons] at h
        exact (ih cs' (by omega)).cons₂ c

lemma replacePass_sublist (cs : List Char) :
    List.Sublist (replacePass cs) cs :=
  replacePass_sublist_aux cs.length cs le_rfl

lemma normalizeLoop_sublist : ∀ (f : Nat) (cs : List Char),
    List.Sublist (normalizeLoop f cs) cs := by
  intro f
  induction f with
  | zero => intro cs; exact List.Sublist.refl _
  | succ f ih =>
    intro cs
    simp only [normalizeLoop]
    by_cases ht : replacePass cs = cs
    · rw [if_pos ht]
    · rw [if_neg ht]
      exact (ih _).trans (replacePass_sublist cs)

lemma normalizeStr_sublist (s : String) :
    List.Sublist (normalizeStr s).toList s.toList :=
  normalizeLoop_sublist _ _

/-! ## Length of `getTokens` against the measure -/

lemma wsSplitAux_length : ∀ (cs acc : List Char),
    (wsSplitAux cs acc).length =
      if acc = [] then rcW false cs else rcW true cs + 1 := by
  intro cs
  induction cs with
  | nil =>
    intro acc
    by_cases ha : acc = []
    · rw [if_pos ha, ha]
      rfl
    · rw [if_neg ha]
      simp only [wsSplitAux]
      rw [if_neg ha]
      rfl
  | cons c cs ih =>
    intro acc
    simp only [wsSplitAux]
    have h0 : (wsSplitAux cs []).length = rcW false cs := by
      rw [ih []]
      simp
    by_cases hw : isWs c = true
    · rw [if_pos hw, List.length_append, h0]
      by_cases ha : acc = []
      · rw [if_pos ha, if_pos ha]
        show ([] : List String).length + rcW false cs = rcW false (c :: cs)
        simp only [rcW]
        rw [if_pos hw]
        simp
      · rw [if_neg ha, if_neg ha]
        show [String.mk acc.reverse].length + rcW false cs = rcW true (c :: cs) + 1
        simp only [rcW]
        rw [if_pos hw]
        simp only [List.length_singleton]
        omega
    · rw [if_neg hw, ih (c :: acc), if_neg (by simp)]
      by_cases ha : acc = []
      · rw [if_pos ha]
        simp only [rcW]
        rw [if_neg hw]
        simp only [pay]
        omega
      · rw [if_neg ha]
        simp only [rcW]
        rw [if_neg hw]
        simp only [pay]
        omega

/-- Expanding parentheses with padding turns the raw measure into the
run count. -/
lemma rcW_expandParen : ∀ (cs : List Char) (b : Bool),
    rcW b (cs.flatMap expandParen) = tc b cs := by
  intro cs
  induction cs with
  | nil => intro b; rfl
  | cons c cs ih =>
    intro b
    show rcW b (expandParen c ++ cs.flatMap expandParen) = tc b (c :: cs)
    simp only [tc]
    by_cases hp : isParen c = true
    · have hc : expandParen c = [' ', c, ' '] := by
        have hp' := hp
        simp only [isParen, decide_eq_true_eq] at hp'
        rcases hp' with rfl | rfl <;> rfl
      have hcw : isWs c = false := by
        simp only [isParen, decide_eq_true_eq] at hp
        rcases hp with rfl | rfl <;> rfl
      rw [hc, if_pos hp]
      show rcW b (' ' :: c :: ' ' :: cs.flatMap expandParen) = 1 + tc false cs
      simp only [rcW]
      rw [if_pos (by decide), if_neg (by simp [hcw]), if_pos (by decide),
        ih false]
      simp [pay]
    · have hp' := hp
      simp only [isParen, decide_eq_true_eq] at hp'
      have hc : expandParen c = [c] := by
        unfold expandParen
        rw [if_neg (fun hcc => hp' (Or.inl hcc)),
          if_neg (fun hcc => hp' (Or.inr hcc))]
      rw [hc, if_neg hp]
      show rcW b (c :: cs.flatMap expandParen) = _
      simp only [rcW]
      by_cases hw : isWs c = true
      · rw [if_pos hw, if_pos hw, ih false]
      · rw [if_neg hw, if_neg hw, ih true]

/-- The number of tokens `getTokens` produces is bounded by the raw
token-count measure (the corner case being the single `""` token of an
all-whitespace input). -/
lemma getTokens_length_le (s : String) :
    (getTokens s).length ≤ max 1 (tc false s.toList) := by
  unfold getTokens
  by_cases hs : s = ""
  · rw [if_pos hs]
    simp
  · rw [if_neg hs]
    by_cases ht : trimChars (s.toList.flatMap expandParen) = []
    · rw [if_pos ht]
      simp
    · rw [if_neg ht]
      have h1 : (wsSplitAux (trimChars (s.toList.flatMap expandParen)) []).length =
          rcW false (trimChars (s.toList.flatMap expandParen)) := by
        rw [wsSplitAux_length]
        rfl
      rw [h1]
      have h2 := rcW_sublist (trimChars_sublist (s.toList.flatMap expandParen)) false
      have h3 := rcW_expandParen s.toList false
      omega

/-! ## `getTokens` produces well-shaped tokens -/

lemma chainWithin {R : Char → Char → Prop} {l₁ l : List Char}
    (h : List.Chain' R l) (hs : List.IsInfix l₁ l) : List.Chain' R l₁ :=
  List.Chain'.infix h hs

lemma trimChars_within (cs : List Char) : List.IsInfix (trimChars cs) cs := by
  unfold trimChars
  have hY : List.IsSuffix (cs.dropWhile isWs) cs := List.dropWhile_suffix _
  have hZ : List.IsSuffix ((cs.dropWhile isWs).reverse.dropWhile isWs)
      (cs.dropWhile isWs).reverse := List.dropWhile_suffix _
  have hP := List.reverse_prefix.2 hZ
  rw [List.reverse_reverse] at hP
  exact hP.isInfix.trans hY.isInfix

lemma expandParen_head_nonparen : ∀ (cs : List Char) (x : Char),
    (cs.flatMap expandParen).head? = some x → isParen x = false := by
  intro cs x h
  cases cs with
  | nil => cases h
  | cons c cs =>
    simp only [List.flatMap_cons] at h
    unfold expandParen at h
    split_ifs at h with h1 h2
    · simp only [List.cons_append, List.head?_cons] at h
      injection h with h'
      subst h'
      decide
    · simp only [List.cons_append, List.head?_cons] at h
      injection h with h'
      subst h'
      decide
    · simp only [List.cons_append, List.head?_cons] at h
      injection h with h'
      subst h'
      simp [isParen, h1, h2]

lemma expandParen_chain : ∀ cs : List Char,
    List.Chain' sep (cs.flatMap expandParen) := by
  intro cs
  induction cs with
  | nil => simp
  | cons c cs ih =>
    simp only [List.flatMap_cons]
    rw [List.chain'_append]
    refine ⟨?_, ih, ?_⟩
    · unfold expandParen
      split_ifs with h1 h2
      · refine List.chain'_cons.2 ⟨?_, List.chain'_cons.2 ⟨?_, ?_⟩⟩
        · intro _; left; decide
        · intro _; right; decide
        · simp
      · refine List.chain'_cons.2 ⟨?_, List.chain'_cons.2 ⟨?_, ?_⟩⟩
        · intro _; left; decide
        · intro _; right; decide
        · simp
      · simp
    · intro x hx y hy
      have hyp : isParen y = false := expandParen_head_nonparen cs y hy
      unfold expandParen at hx
      split_ifs at hx with h1 h2
      · have hx' : ' ' = x := by simpa using hx
        subst hx'
        intro _
        left
        decide
      · have hx' : ' ' = x := by simpa using hx
        subst hx'
        intro _
        left
        decide
      · have hx' : c = x := by simpa using hx
        subst hx'
        intro hcon
        rcases hcon with hc | hy2
        · exfalso
          simp [isParen, h1, h2] at hc
        · rw [hyp] at hy2
          cases hy2

/-- A flushed accumulator forms a well-shaped token. -/
lemma flush_nice (acc : List Char) (hnw : ∀ c ∈ acc, isWs c = false)
    (hsh : (∀ c ∈ acc, isParen c = false) ∨ ∃ p, isParen p = true ∧ acc = [p])
    (ha : acc ≠ []) : niceTok (String.mk acc.reverse) := by
  refine ⟨?_, ?_, ?_⟩
  · intro hr
    exact ha (by simpa using hr)
  · intro c hc
    have := hnw c (List.mem_reverse.1 hc)
    simp [this]
  · rcases hsh with hpf | ⟨p, hp, rfl⟩
    · right; right
      intro c hc
      have := hpf c (List.mem_reverse.1 hc)
      simp [this]
    · have hpor : p = '(' ∨ p = ')' := by simpa [isParen] using hp
      rcases hpor with rfl | rfl
      · left; decide
      · right; left; decide

/-- The whitespace splitter only emits well-shaped tokens when adjacent
characters never weld a parenthesis to other material. -/
lemma wsSplitAux_nice : ∀ (cs : List Char), ∀ acc : List Char,
    (∀ c ∈ acc, isWs c = false) →
    ((∀ c ∈ acc, isParen c = false) ∨ ∃ p, isParen p = true ∧ acc = [p]) →
    List.Chain' sep (acc.reverse ++ cs) →
    niceToks (wsSplitAux cs acc) := by
  intro cs
  induction cs with
  | nil =>
    intro acc hnw hsh hch t ht
    by_cases ha : acc = []
    · rw [show wsSplitAux [] acc = [] from by rw [ha]; rfl] at ht
      cases ht
    · simp only [wsSplitAux, if_neg ha] at ht
      rcases List.mem_singleton.1 ht with rfl
      exact flush_nice acc hnw hsh ha
  | cons c cs ih =>
    intro acc hnw hsh hch
    simp only [wsSplitAux]
    by_cases hw : isWs c = true
    · rw [if_pos hw]
      intro t ht
      rcases List.mem_append.1 ht with h1 | h2
      · by_cases ha : acc = []
        · rw [if_pos ha] at h1
          cases h1
        · rw [if_neg ha] at h1
          rcases List.mem_singleton.1 h1 with rfl
          exact flush_nice acc hnw hsh ha
      · have hch' : List.Chain' sep cs :=
          hch.suffix ⟨acc.reverse ++ [c], by simp⟩
        exact ih [] (by simp) (Or.inl (by simp)) (by simpa using hch') t h2
    · rw [if_neg hw]
      refine ih (c :: acc) ?_ ?_ ?_
      · intro d hd
        rcases List.mem_cons.1 hd with rfl | hd'
        · simpa using hw
        · exact hnw d hd'
      · cases hacc : acc with
        | nil =>
          subst hacc
          by_cases hcp : isParen c = true
          · right
            exact ⟨c, hcp, rfl⟩
          · left
            intro d hd
            rcases List.mem_cons.1 hd with rfl | hd'
            · simpa using hcp
            · cases hd'
        | cons a acc' =>
          subst hacc
          have hadj : sep a c := by
            have hinf : List.IsInfix [a, c] ((a :: acc').reverse ++ c :: cs) :=
              ⟨acc'.reverse, cs, by simp⟩
            rcases List.chain'_cons.1 (chainWithin hch hinf) with ⟨hs, -⟩
            exact hs
          have haw : isWs a = false := hnw a (List.mem_cons_self a acc')
          have hcparen : isParen c = false := by
            by_cases hcp : isParen c = true
            · rcases hadj (Or.inr hcp) with h1 | h2
              · rw [haw] at h1
                cases h1
              · exact absurd h2 (by simpa using hw)
            · simpa using hcp
          have haparen : isParen a = false := by
            by_cases hap : isParen a = true
            · rcases hadj (Or.inl hap) with h1 | h2
              · rw [haw] at h1
                cases h1
              · exact absurd h2 (by simpa using hw)
            · simpa using hap
          left
          intro d hd
          rcases List.mem_cons.1 hd with rfl | hd'
          · exact hcparen
          · rcases hsh with hpf | ⟨p, hp, hpe⟩
            · exact hpf d hd'
            · exfalso
              injection hpe with h1 h2
              subst h1
              rw [haparen] at hp
              cases hp
      · show List.Chain' sep ((c :: acc).reverse ++ cs)
        simpa [List.reverse_cons, List.append_assoc] using hch

/-- Every `getTokens` output is well shaped, except the single `""`
token of a nonempty all-whitespace input. -/
lemma getTokens_nice (s : String) :
    niceToks (getTokens s) ∨ getTokens s = [""] := by
  unfold getTokens
  by_cases hs : s = ""
  · rw [if_pos hs]
    left
    intro t ht
    cases ht
  · rw [if_neg hs]
    by_cases ht : trimChars (s.toList.flatMap expandParen) = []
    · rw [if_pos ht]
      right
      rfl
    · rw [if_neg ht]
      left
      apply wsSplitAux_nice _ [] (by simp) (Or.inl (by simp))
      show List.Chain' sep ([].reverse ++ trimChars (s.toList.flatMap expandParen))
      simp only [List.reverse_nil, List.nil_append]
      exact chainWithin (expandParen_chain s.toList) (trimChars_within _)

/-! ## The accepted-reduction step strictly shortens the token list -/

lemma evaluateNot_val (v : String) : evaluateNot v = "0" ∨ evaluateNot v = "1" := by
  unfold evaluateNot
  split_ifs <;> simp

lemma evaluateOp_val (a op b : String) :
    evaluateOp a op b = "1" ∨ evaluateOp a op b = "0" := by
  unfold evaluateOp
  dsimp only
  split_ifs <;> simp

lemma niceTok_val {v : String} (h : v = "0" ∨ v = "1") : niceTok v := by
  rcases h with rfl | rfl <;> decide

lemma isVal_cases {v : String} (h : isVal v = true) : v = "1" ∨ v = "0" := by
  unfold isVal at h
  exact of_decide_eq_true h

lemma getD_ne_default_lt {l : List String} {i : Nat} (h : l.getD i "" ≠ "") :
    i < l.length := by
  by_contra hc
  push_neg at hc
  exact h (List.getD_eq_default _ _ hc)

/-- Inversion of the interactability test. -/
lemma candAt_cases {tokens : List String} {idx : Nat} {p : Nat × Nat}
    (h : candAt tokens idx = some p) :
    (tokens.getD idx "" = "¬" ∧ isVal (tokens.getD (idx + 1) "") = true) ∨
      ((tokens.getD idx "" = "∧" ∨ tokens.getD idx "" = "∨" ∨
          tokens.getD idx "" = "⇒" ∨ tokens.getD idx "" = "⇔") ∧
        idx ≠ 0 ∧ isVal (tokens.getD (idx - 1) "") = true ∧
        isVal (tokens.getD (idx + 1) "") = true) := by
  unfold candAt at h
  by_cases h1 : tokens.getD idx "" = "¬" ∧ isVal (tokens.getD (idx + 1) "") = true
  · exact Or.inl h1
  · rw [if_neg h1] at h
    by_cases h2 : (tokens.getD idx "" = "∧" ∨ tokens.getD idx "" = "∨" ∨
          tokens.getD idx "" = "⇒" ∨ tokens.getD idx "" = "⇔") ∧
        isVal (if idx = 0 then "" else tokens.getD (idx - 1) "") = true ∧
        isVal (tokens.getD (idx + 1) "") = true
    · right
      obtain ⟨hop, hprev, hnext⟩ := h2
      have hidx : idx ≠ 0 := by
        intro h0
        rw [if_pos h0] at hprev
        exact absurd hprev (by decide)
      rw [if_neg hidx] at hprev
      exact ⟨hop, hidx, hprev, hnext⟩
    · rw [if_neg h2] at h
      cases h

/-- The raw reduction string, measured: one token per surviving entry. -/
lemma built_tc (A B : List String) (res : String)
    (hA : niceToks A) (hB : niceToks B) (hres : niceTok res) :
    tc false (joinTokens A ++ " " ++ res ++ " " ++ joinTokens B).toList =
      A.length + 1 + B.length := by
  have hJ : (joinTokens A ++ " " ++ res ++ " " ++ joinTokens B).toList =
      (joinTokens A).toList ++ ' ' ::
        (res.toList ++ ' ' :: (joinTokens B).toList) := by
    simp only [toList_append]
    rw [show (" " : String).toList = [' '] from rfl]
    simp [List.append_assoc]
  rw [hJ, tc_append_ws, tc_append_ws, tc_joinTokens hA, tc_joinTokens hB,
    tc_false_niceTok hres]
  omega

/-- Normalizing and re-tokenizing the built string cannot exceed the raw
measure. -/
lemma getTokens_normalized_le (J : String) :
    (getTokens (normalizeStr (String.mk (trimChars J.toList)))).length ≤
      max 1 (tc false J.toList) := by
  have hb := getTokens_length_le (normalizeStr (String.mk (trimChars J.toList)))
  have h1 := tc_sublist (normalizeStr_sublist (String.mk (trimChars J.toList))) false
  have h2 : tc false (String.mk (trimChars J.toList)).toList ≤ tc false J.toList := by
    show tc false (trimChars J.toList) ≤ tc false J.toList
    exact tc_sublist (trimChars_sublist _) false
  refine hb.trans (Nat.max_le.2 ⟨le_max_left _ _, ?_⟩)
  exact le_trans (le_trans h1 h2) (le_max_right _ _)

/-- An accepted reduction (an interactable operator whose precedence
passes the strict-hierarchy check) strictly shortens the token list: the
NOT rule replaces two tokens by one, the binary rule replaces three by
one, and normalization only deletes characters. -/
lemma accepted_step_shortens (history : List String) (tokens : List String)
    (idx : Nat) (p : Nat × Nat)
    (hnice : niceToks tokens)
    (hcand : candAt tokens idx = some p)
    (hacc : ¬ PRECEDENCE (tokens.getD idx "") < maxPrecOf tokens) :
    (getTokens (((handleInteraction history idx tokens).1).getLastD "")).length <
      tokens.length := by
  have hA : niceToks (tokens.take idx) :=
    fun t ht => hnice t (List.take_subset _ _ ht)
  have hA' : niceToks (tokens.take (idx - 1)) :=
    fun t ht => hnice t (List.take_subset _ _ ht)
  have hB : niceToks (tokens.drop (idx + 2)) :=
    fun t ht => hnice t (List.drop_subset _ _ ht)
  rcases candAt_cases hcand with ⟨hno, hnoval⟩ | ⟨hop, hidx0, hprev, hnext⟩
  · -- NOT reduction
    have hlt : idx < tokens.length :=
      getD_ne_default_lt (by rw [hno]; decide)
    have hlt2 : idx + 1 < tokens.length := by
      refine getD_ne_default_lt ?_
      rcases isVal_cases hnoval with hv | hv <;> rw [hv] <;> decide
    have hmem : p ∈ candidatesOf tokens :=
      List.mem_filterMap.2 ⟨idx, List.mem_range.2 hlt, hcand⟩
    unfold handleInteraction
    rw [if_neg (List.ne_nil_of_mem hmem), if_neg hacc, if_pos hno]
    dsimp only
    simp only [addToHistory]
    rw [List.getLastD_concat]
    have hkey := getTokens_normalized_le
      (joinTokens (tokens.take idx) ++ " " ++
        evaluateNot (tokens.getD (idx + 1) "") ++ " " ++
        joinTokens (tokens.drop (idx + 2)))
    rw [built_tc _ _ _ hA hB (niceTok_val (evaluateNot_val _))] at hkey
    rw [List.length_take, List.length_drop] at hkey
    rw [Nat.max_eq_right (by omega)] at hkey
    omega
  · -- binary reduction
    have hlt : idx < tokens.length := by
      refine getD_ne_default_lt ?_
      rcases hop with hv | hv | hv | hv <;> rw [hv] <;> decide
    have hlt2 : idx + 1 < tokens.length := by
      refine getD_ne_default_lt ?_
      rcases isVal_cases hnext with hv | hv <;> rw [hv] <;> decide
    have hne7 : ¬ tokens.getD idx "" = "¬" := by
      rcases hop with hv | hv | hv | hv <;> rw [hv] <;> decide
    have hmem : p ∈ candidatesOf tokens :=
      List.mem_filterMap.2 ⟨idx, List.mem_range.2 hlt, hcand⟩
    unfold handleInteraction
    rw [if_neg (List.ne_nil_of_mem hmem), if_neg hacc, if_neg hne7,
      if_neg hidx0, if_neg hidx0]
    dsimp only
    simp only [addToHistory]
    rw [List.getLastD_concat]
    have hkey := getTokens_normalized_le
      (joinTokens (tokens.take (idx - 1)) ++ " " ++
        evaluateOp (tokens.getD (idx - 1) "") (tokens.getD idx "")
          (tokens.getD (idx + 1) "") ++ " " ++
        joinTokens (tokens.drop (idx + 2)))
    rw [built_tc _ _ _ hA' hB (niceTok_val (evaluateOp_val _ _ _).symm)] at hkey
    rw [List.length_take, List.length_drop] at hkey
    rw [Nat.max_eq_right (by omega)] at hkey
    omega

/-- The stray `""` token of an all-whitespace current string is never
interactable. -/
lemma candAt_single_err : ∀ i, candAt [""] i = none := by
  intro i
  have h0 : ∀ j, ([""] : List String).getD j "" = "" := fun j => by
    cases j <;> rfl
  unfold candAt
  rw [h0 i, h0 (i + 1)]
  rw [if_neg (by rintro ⟨hc, -⟩; exact absurd hc (by decide))]
  rw [if_neg (by
    rintro ⟨hc, -, -⟩
    rcases hc with hc | hc | hc | hc <;> exact absurd hc (by decide))]

lemma accepted_step_shortens_str (s : String) (history : List String)
    (idx : Nat) (p : Nat × Nat)
    (hcand : candAt (getTokens s) idx = some p)
    (hacc : ¬ PRECEDENCE ((getTokens s).getD idx "") < maxPrecOf (getTokens s)) :
    (getTokens (((handleInteraction history idx (getTokens s)).1).getLastD "")).length <
      (getTokens s).length := by
  rcases getTokens_nice s with hn | he
  · exact accepted_step_shortens history _ idx p hn hcand hacc
  · rw [he] at hcand
    rw [candAt_single_err idx] at hcand
    cases hcand

/-- C9. Reduction sessions terminate: every accepted reduction (a click
on an interactable operator that passes the strict-hierarchy check)
strictly shortens the token sequence obtained by re-tokenizing the
recorded normalized state — the NOT rule trades two tokens for one, the
binary rule trades three for one, and normalization only deletes
parenthesis pairs around literals — so from a starting sequence of
length `L` at most `L` reductions can ever be accepted. -/
theorem reduction_termination :
    (∀ (s : String) (history : List String) (idx : Nat) (p : Nat × Nat),
        candAt (getTokens s) idx = some p →
        ¬ PRECEDENCE ((getTokens s).getD idx "") < maxPrecOf (getTokens s) →
        (getTokens
            (((handleInteraction history idx (getTokens s)).1).getLastD "")).length <
          (getTokens s).length) ∧
    (∀ (g : Nat → String) (n : Nat),
        (∀ k, k < n → ∃ (idx : Nat) (p : Nat × Nat) (history : List String),
          candAt (getTokens (g k)) idx = some p ∧
          (¬ PRECEDENCE ((getTokens (g k)).getD idx "") <
            maxPrecOf (getTokens (g k))) ∧
          g (k + 1) =
            ((handleInteraction history idx (getTokens (g k))).1).getLastD "") →
        n ≤ (getTokens (g 0)).length) := by
  constructor
  · intro s history idx p hc ha
    exact accepted_step_shortens_str s history idx p hc ha
  · intro g n hsteps
    have key : ∀ k, k ≤ n →
        (getTokens (g k)).length + k ≤ (getTokens (g 0)).length := by
      intro k
      induction k with
      | zero => intro _; simp
      | succ k ih =>
        intro hk
        obtain ⟨idx, p, history, hc, ha, hg⟩ := hsteps k (by omega)
        have hlt := accepted_step_shortens_str (g k) history idx p hc ha
        rw [← hg] at hlt
        have hih := ih (by omega)
        omega
    have := key n le_rfl
    omega

/-- Witness for C9: reducing the accepted `∧` in `1 ∧ 0` shrinks the
three tokens to one. -/
theorem reduction_termination_witness :
    candAt (getTokens "1 ∧ 0") 1 = some (1, 4) ∧
      (¬ PRECEDENCE ((getTokens "1 ∧ 0").getD 1 "") <
        maxPrecOf (getTokens "1 ∧ 0")) ∧
      (getTokens
          (((handleInteraction [] 1 (getTokens "1 ∧ 0")).1).getLastD "")).length <
        (getTokens "1 ∧ 0").length :=
  ⟨by decide, by decide,
    reduction_termination.1 "1 ∧ 0" [] 1 (1, 4) (by decide) (by decide)⟩

end LogiMaster
